import Mathlib

/-!
Verification of `file_splitter.py`: a shallow embedding of the splitter,
the digest calculator, the part readers, the reassembly writer and the two
join strategies, together with proofs about them.

Files are modelled as lists of bytes (`List Nat`); the filesystem a join
operation sees is a `PartsDir` (the contents of the manifest file and the
part files, keyed by 1-based part index).  Python `while` loops become
structural recursions on an explicit counter that provably dominates the
number of iterations, so every definition is executable by the kernel.
-/
abbrev ByteSeq := List Nat

/-! ## Positioned writes into a preallocated output file

`output.seek(pos); output.write(data)` on a file opened `r+b`: bytes
`[pos, pos + data.length)` are overwritten; seeking past the end and
writing zero-fills the gap. -/
/-- Semantics of `seek(pos)` followed by `write(data)` on a file whose
current content is `f`. -/
def writeAt (f : ByteSeq) (pos : Nat) (data : ByteSeq) : ByteSeq :=
  (f.take pos ++ List.replicate (pos - f.length) 0) ++ data ++ f.drop (pos + data.length)

/-- Apply a sequence of positioned writes in order. -/
def applyWrites (ws : List (Nat × ByteSeq)) (f : ByteSeq) : ByteSeq :=
  ws.foldl (fun g w => writeAt g w.1 w.2) f

/-- Write `w` covers absolute byte position `j`. -/
def covers (w : Nat × ByteSeq) (j : Nat) : Prop :=
  w.1 ≤ j ∧ j < w.1 + w.2.length

instance (w : Nat × ByteSeq) (j : Nat) : Decidable (covers w j) := by
  unfold covers; infer_instance

/-- The byte ranges of two writes do not overlap. -/
def disjW (w w' : Nat × ByteSeq) : Prop :=
  w.1 + w.2.length ≤ w'.1 ∨ w'.1 + w'.2.length ≤ w.1

/-- All writes stay inside a file of length `S`. -/
def InBounds (ws : List (Nat × ByteSeq)) (S : Nat) : Prop :=
  ∀ w ∈ ws, w.1 + w.2.length ≤ S

/-- Every byte of `content` is supplied by some write. -/
def CoversAll (ws : List (Nat × ByteSeq)) (content : ByteSeq) : Prop :=
  ∀ j, j < content.length →
    ∃ w ∈ ws, covers w j ∧ w.2[j - w.1]? = content[j]?

/-! ## Text: Python `str.strip` and `int()` over lists of characters

Manifest files are UTF-8 text; we model each line as a `List Char`.
`str(n)` for a natural number prints the decimal digits `Nat.toDigits 10 n`
(this is exactly Lean's `Nat.repr`). -/
/-- Characters removed by Python `str.strip()` (ASCII whitespace). -/
def pyIsSpace (c : Char) : Bool :=
  c = ' ' || c = '\t' || c = '\n' || c = '\x0d' || c = '\x0b' || c = '\x0c'

/-- Python `str.strip()`. -/
def pyStrip (s : List Char) : List Char :=
  ((s.dropWhile pyIsSpace).reverse.dropWhile pyIsSpace).reverse

/-- Value of a decimal digit character, if it is one. -/
def digitVal? (c : Char) : Option Nat :=
  if '0' ≤ c ∧ c ≤ '9' then some (c.toNat - '0'.toNat) else none

/-- Accumulating decimal parse; fails on the first non-digit. -/
def parseDigitsLoop (acc : Nat) : List Char → Option Nat
  | [] => some acc
  | c :: cs =>
    match digitVal? c with
    | none => none
    | some d => parseDigitsLoop (acc * 10 + d) cs

def parseDigits (cs : List Char) : Option Nat :=
  match cs with
  | [] => none
  | _ => parseDigitsLoop 0 cs

/-- Python `int(s)`: strip whitespace, optional sign, then decimal digits
(numeric underscores are not modelled; no manifest in these developments
contains them). -/
def parsePyInt (s : List Char) : Option Int :=
  match pyStrip s with
  | [] => none
  | c :: rest =>
    if c = '-' then (parseDigits rest).map (fun v => -(v : Int))
    else if c = '+' then (parseDigits rest).map (fun v => (v : Int))
    else (parseDigits (c :: rest)).map (fun v => (v : Int))

/-- Reference decimal printer used to reason about `Nat.toDigits`. -/
def toDigitsSimple (n : Nat) : List Char :=
  if h : n < 10 then [Nat.digitChar n]
  else toDigitsSimple (n / 10) ++ [Nat.digitChar (n % 10)]
termination_by n
decreasing_by exact Nat.div_lt_self (by omega) (by omega)

/-- Power of ten with as many zeros as `n` has digits. -/
def pow10len (n : Nat) : Nat :=
  if h : n < 10 then 10 else pow10len (n / 10) * 10
termination_by n
decreasing_by exact Nat.div_lt_self (by omega) (by omega)

/-! ## SHA-256 (the digest `hashlib.sha256` computes)

The hash object's `update` appends bytes to the absorbed stream; `hexdigest`
is SHA-256 of the absorbed stream rendered as lowercase hex. -/
/-- Truncate to a 32-bit word. -/
def w32 (n : Nat) : Nat := n % 4294967296

/-- Right rotation of a 32-bit word. -/
def rotr32 (x n : Nat) : Nat := w32 (x / 2 ^ n + x * 2 ^ (32 - n))

/-- Logical right shift. -/
def shr32 (x n : Nat) : Nat := x / 2 ^ n

/-- Bitwise complement of a 32-bit word. -/
def not32 (x : Nat) : Nat := 4294967295 - w32 x

def K256 : List Nat := [
  1116352408, 1899447441, 3049323471, 3921009573,
  961987163, 1508970993, 2453635748, 2870763221,
  3624381080, 310598401, 607225278, 1426881987,
  1925078388, 2162078206, 2614888103, 3248222580,
  3835390401, 4022224774, 264347078, 604807628,
  770255983, 1249150122, 1555081692, 1996064986,
  2554220882, 2821834349, 2952996808, 3210313671,
  3336571891, 3584528711, 113926993, 338241895,
  666307205, 773529912, 1294757372, 1396182291,
  1695183700, 1986661051, 2177026350, 2456956037,
  2730485921, 2820302411, 3259730800, 3345764771,
  3516065817, 3600352804, 4094571909, 275423344,
  430227734, 506948616, 659060556, 883997877,
  958139571, 1322822218, 1537002063, 1747873779,
  1955562222, 2024104815, 2227730452, 2361852424,
  2428436474, 2756734187, 3204031479, 3329325298]

def sha256H0 : List Nat := [
  1779033703, 3144134277, 1013904242, 2773480762,
  1359893119, 2600822924, 528734635, 1541459225]

/-- Pack bytes into big-endian 32-bit words. -/
def toWords : List Nat → List Nat
  | b0 :: b1 :: b2 :: b3 :: rest =>
      (((b0 * 256 + b1) * 256 + b2) * 256 + b3) :: toWords rest
  | _ => []

def ssig0 (w : Nat) : Nat := rotr32 w 7 ^^^ rotr32 w 18 ^^^ shr32 w 3

def ssig1 (w : Nat) : Nat := rotr32 w 17 ^^^ rotr32 w 19 ^^^ shr32 w 10

/-- Extend the 16 message words to the 64-entry schedule. -/
def buildW : List Nat → Nat → List Nat
  | ws, 0 => ws
  | ws, fuel + 1 =>
      let n := ws.length
      buildW (ws ++ [w32 (ssig1 (ws.getD (n - 2) 0) + ws.getD (n - 7) 0 +
        ssig0 (ws.getD (n - 15) 0) + ws.getD (n - 16) 0)]) fuel

/-- One round of the SHA-256 compression function. -/
def compressRound (st : List Nat) (kw : Nat × Nat) : List Nat :=
  match st with
  | [a, b, c, d, e, f, g, h] =>
      let s1 := rotr32 e 6 ^^^ rotr32 e 11 ^^^ rotr32 e 25
      let ch := (e &&& f) ^^^ (not32 e &&& g)
      let temp1 := w32 (h + s1 + ch + kw.1 + kw.2)
      let s0 := rotr32 a 2 ^^^ rotr32 a 13 ^^^ rotr32 a 22
      let maj := (a &&& b) ^^^ (a &&& c) ^^^ (b &&& c)
      let temp2 := w32 (s0 + maj)
      [w32 (temp1 + temp2), a, b, c, w32 (d + temp1), e, f, g]
  | st => st

def compressBlock (H : List Nat) (block : ByteSeq) : List Nat :=
  let W := buildW (toWords block) 48
  let st := (K256.zip W).foldl compressRound H
  (H.zip st).map (fun p => w32 (p.1 + p.2))

/-- Big-endian byte rendering of `v` on `count` bytes. -/
def beBytes (v : Nat) : Nat → ByteSeq
  | 0 => []
  | count + 1 => beBytes (v / 256) count ++ [v % 256]

/-- SHA-256 padding: `0x80`, zeros to 56 mod 64, 64-bit big-endian bit length. -/
def sha256pad (msg : ByteSeq) : ByteSeq :=
  msg ++ [128] ++ List.replicate ((119 - msg.length % 64) % 64) 0 ++
    beBytes (8 * msg.length) 8

/-- Split into 64-byte blocks (the fuel dominates the number of blocks). -/
def splitBlocks : ByteSeq → Nat → List ByteSeq
  | _, 0 => []
  | [], _ + 1 => []
  | msg, fuel + 1 => msg.take 64 :: splitBlocks (msg.drop 64) fuel

/-- The eight 32-bit words of the SHA-256 state of `msg`. -/
def sha256words (msg : ByteSeq) : List Nat :=
  (splitBlocks (sha256pad msg) (sha256pad msg).length).foldl compressBlock sha256H0

/-- Lowercase hex rendering of a 32-bit word on exactly 8 nibbles. -/
def wordHex (w : Nat) : List Char :=
  [Nat.digitChar (w / 16 ^ 7 % 16), Nat.digitChar (w / 16 ^ 6 % 16),
   Nat.digitChar (w / 16 ^ 5 % 16), Nat.digitChar (w / 16 ^ 4 % 16),
   Nat.digitChar (w / 16 ^ 3 % 16), Nat.digitChar (w / 16 ^ 2 % 16),
   Nat.digitChar (w / 16 % 16), Nat.digitChar (w % 16)]

/-- `hashlib.sha256(data).hexdigest()`. -/
def sha256hex (msg : ByteSeq) : List Char :=
  (sha256words msg).foldr (fun w acc => wordHex w ++ acc) []

/-! ## `calculate_file_hash`

The Python loop reads `buffer_size` bytes at a time until `read` returns
`b""` and feeds each chunk to the hash object's `update`; `update` appends
to the absorbed stream, and `hexdigest` is SHA-256 of that stream.  The
file's content stands for the opened file; the fuel dominates the number
of loop iterations. -/
def hash_read_loop : ByteSeq → Nat → Nat → List ByteSeq
  | _, _, 0 => []
  | content, buf, fuel + 1 =>
    let chunk := content.take buf
    if chunk = [] then []
    else chunk :: hash_read_loop (content.drop buf) buf fuel

def calculate_file_hash (content : ByteSeq) (buffer_size : Nat) : List Char :=
  sha256hex (hash_read_loop content buffer_size (content.length + 1)).flatten

/-! ## `split_file` -/
/-- The manifest record the splitter writes into the `.info` file. -/
structure Manifest where
  original_name : List Char
  parts_count : Nat
  original_size : Nat
  chunk_size : Nat
  original_hash : Option (List Char)
deriving DecidableEq

structure SplitResult where
  parts : List ByteSeq
  manifest : Manifest
deriving DecidableEq

/-- Inner loop of `split_file`: accumulate one part of at most `chunk_size`
bytes, reading at most `buffer_size` bytes at a time; `written` is the
sequential-read position (`bytes_written`).  Returns the part's bytes and
the updated `bytes_written`. -/
def split_part_loop (content : ByteSeq) : Nat → Nat → Nat → Nat → ByteSeq × Nat
  | written, _, _, 0 => ([], written)
  | written, remaining, buf, fuel + 1 =>
    if remaining = 0 ∨ content.length ≤ written then ([], written)
    else
      let rs := min buf (min remaining (content.length - written))
      let chunk := (content.drop written).take rs
      if chunk = [] then ([], written)
      else
        let r := split_part_loop content (written + chunk.length) (remaining - chunk.length) buf fuel
        (chunk ++ r.1, r.2)

/-- Outer loop of `split_file`: one part per iteration while
`bytes_written < file_size`.  With `chunk_size = 0` or `buffer_size = 0`
the Python loop never advances (it diverges); the fuel then runs out and
the model returns the parts written so far. -/
def split_parts_loop (content : ByteSeq) (chunk_size buf : Nat) : Nat → Nat → List ByteSeq
  | _, 0 => []
  | written, fuel + 1 =>
    if content.length ≤ written then []
    else
      let r := split_part_loop content written chunk_size buf (chunk_size + 1)
      r.1 :: split_parts_loop content chunk_size buf r.2 fuel

/-- `split_file(file_path, chunk_size, verify_hash, buffer_size)`.
`content` is the bytes of the (existing) source file and `base_name` its
`os.path.basename`; a missing source is out of the model (the function
would report and return before touching anything).  Returns `none` on the
empty-file error. -/
def split_file (content : ByteSeq) (base_name : List Char) (chunk_size : Nat)
    (verify_hash : Bool) (buffer_size : Nat) : Option SplitResult :=
  if content.length = 0 then none
  else
    let file_hash : Option (List Char) :=
      if verify_hash then some (calculate_file_hash content 8192) else none
    let parts := split_parts_loop content chunk_size buffer_size 0 content.length
    some { parts := parts
           manifest := { original_name := base_name
                         parts_count := parts.length
                         original_size := content.length
                         chunk_size := chunk_size
                         original_hash := file_hash } }

def keyName : List Char := "original_name:".toList

def keyParts : List Char := "parts_count:".toList

def keySize : List Char := "original_size:".toList

def keyChunk : List Char := "chunk_size:".toList

def keyHash : List Char := "original_hash:".toList

/-- The lines of the `.info` file, exactly as `split_file` writes them. -/
def manifest_lines (m : Manifest) : List (List Char) :=
  [keyName ++ m.original_name,
   keyParts ++ Nat.toDigits 10 m.parts_count,
   keySize ++ Nat.toDigits 10 m.original_size,
   keyChunk ++ Nat.toDigits 10 m.chunk_size] ++
  (match m.original_hash with
   | some h => [keyHash ++ h]
   | none => [])

/-! ## The reassembly channel messages

A message is the 4-tuple `(part_num, position, data, error)` put into
`result_queue`; data chunks carry `error = None`, the terminal messages
carry `error = "COMPLETED"` or the exception's text. -/
structure RawMsg where
  part_num : Nat
  position : Option Nat
  data : Option ByteSeq
  error : Option (List Char)
deriving DecidableEq

def cCOMPLETED : List Char := "COMPLETED".toList

/-- A message whose `error` field marks it terminal for its part. -/
def isTerminal (m : RawMsg) : Bool := m.error.isSome

/-! ## `read_part_worker_streaming` -/
/-- The read loop of a part reader: emit the part's bytes as positioned
chunks of at most `buffer_size` bytes.  `psize` is the part's size as
measured by `os.path.getsize`. -/
def read_part_loop (d : ByteSeq) (part_num psize position buf : Nat) :
    Nat → Nat → List RawMsg
  | _, 0 => []
  | bytes_read, fuel + 1 =>
    if psize ≤ bytes_read then []
    else
      let chunk := (d.drop bytes_read).take (min buf (psize - bytes_read))
      if chunk = [] then []
      else ⟨part_num, some (position + bytes_read), some chunk, none⟩ ::
        read_part_loop d part_num psize position buf (bytes_read + chunk.length) fuel

def fileNotFoundMsg : List Char := "No such file or directory".toList

/-- `read_part_worker_streaming(part_info, result_queue, buffer_size)`:
the list of messages the worker puts into the queue, in order.  `file` is
the part file's content, `none` when opening raises. -/
def read_part_worker_streaming (part_num : Nat) (file : Option ByteSeq)
    (position psize buf : Nat) : List RawMsg :=
  match file with
  | none => [⟨part_num, none, none, some fileNotFoundMsg⟩]
  | some d => read_part_loop d part_num psize position buf 0 (psize + 1) ++
      [⟨part_num, none, none, some cCOMPLETED⟩]

/-! ## `write_part_worker_streaming`

The writer drains the queue until `completed_parts` reaches `total_parts`;
an event is `some msg` (a message arrived in time) or `none` (the
30-second `queue.get` timed out).  An exhausted event list while the loop
still wants messages stands for blocking forever (`starved`). -/
structure WriterSt where
  completed_parts : Nat
  file : ByteSeq
deriving DecidableEq

inductive WStatus where
  | drained
  | timedOut
  | starved
deriving DecidableEq

/-- Python truthiness of the `error` field (`if error:`). -/
def isTruthy : Option (List Char) → Bool
  | none => false
  | some [] => false
  | some (_ :: _) => true

/-- One iteration of the writer's loop body on a received message. -/
def write_step (st : WriterSt) (m : RawMsg) : WriterSt :=
  if m.error = some cCOMPLETED then
    { st with completed_parts := st.completed_parts + 1 }
  else if isTruthy m.error then st
  else { st with file := writeAt st.file (m.position.getD 0) (m.data.getD []) }

def write_part_worker_streaming (total_parts : Nat) :
    List (Option RawMsg) → WriterSt → WriterSt × WStatus
  | events, st =>
    if total_parts ≤ st.completed_parts then (st, .drained)
    else
      match events with
      | [] => (st, .starved)
      | none :: _ => (st, .timedOut)
      | some m :: es => write_part_worker_streaming total_parts es (write_step st m)

/-! ## Manifest parsing and the two join strategies -/
inductive JoinErr where
  | noInfo
  | valueError
  | formatError
  | missingPart (i : Nat)
deriving DecidableEq

/-- The parse state of the `for line in f` loop (initial values are the
variables' initializers). -/
structure InfoData where
  original_name : Option (List Char) := none
  parts_count : Int := 0
  original_size : Int := 0
  chunk_size : Int := 0
  original_hash : Option (List Char) := none
deriving DecidableEq

/-- `line.split(':', 1)[1].strip()` for a line that starts with `key`
(each key contains exactly one colon, its last character). -/
def infoValue (key line : List Char) : List Char :=
  pyStrip (line.drop key.length)

/-- One line of the manifest-parsing loop; `int(...)` raising `ValueError`
aborts the whole join uncaught. -/
def parse_info_line (st : InfoData) (line : List Char) : Except Unit InfoData :=
  if keyName.isPrefixOf line then
    .ok { st with original_name := some (infoValue keyName line) }
  else if keyParts.isPrefixOf line then
    match parsePyInt (infoValue keyParts line) with
    | none => .error ()
    | some v => .ok { st with parts_count := v }
  else if keySize.isPrefixOf line then
    match parsePyInt (infoValue keySize line) with
    | none => .error ()
    | some v => .ok { st with original_size := v }
  else if keyChunk.isPrefixOf line then
    match parsePyInt (infoValue keyChunk line) with
    | none => .error ()
    | some v => .ok { st with chunk_size := v }
  else if keyHash.isPrefixOf line then
    .ok { st with original_hash := some (infoValue keyHash line) }
  else .ok st

def parse_info (lines : List (List Char)) : Except Unit InfoData :=
  lines.foldlM parse_info_line {}

/-- `if not original_name or parts_count == 0`. -/
def infoInvalid (info : InfoData) : Bool :=
  (info.original_name.getD []).isEmpty || info.parts_count == 0

/-- The directory a join operates on: the lines of the `.info` file the
`listdir` scan finds (`none` when there is none), and the content of
`{original_name}.part{i:03d}` keyed by the 1-based index `i` (`none` for a
missing part file). -/
structure PartsDir where
  info : Option (List (List Char))
  parts : Nat → Option ByteSeq

structure JoinResult where
  output : Option ByteSeq
  error : Option JoinErr
deriving DecidableEq

/-- The inner copy of one part in the single-threaded join: sequential
buffered reads written at the current file position, starting at the
part's offset. -/
def copy_loop : ByteSeq → Nat → ByteSeq → Nat → Nat → ByteSeq
  | output, _, _, _, 0 => output
  | output, pos, d, buf, fuel + 1 =>
    let chunk := d.take buf
    if chunk = [] then output
    else copy_loop (writeAt output pos chunk) (pos + chunk.length) (d.drop buf) buf fuel

/-- The `for i in range(1, parts_count + 1)` loop of the single join;
`count` is the number of indices still to process. -/
def join_single_loop (parts : Nat → Option ByteSeq) (C buf : Nat) :
    Nat → Nat → ByteSeq → JoinResult
  | _, 0, output => ⟨some output, none⟩
  | i, count + 1, output =>
    match parts i with
    | none => ⟨some output, some (.missingPart i)⟩
    | some d => join_single_loop parts C buf (i + 1) count
        (copy_loop output ((i - 1) * C) d buf (d.length + 1))

/-- `join_files_single_streaming(parts_directory, output_file, buffer_size)`.
Negative manifest values would crash Python's `truncate`/`seek`; `toNat`
stands in, and no claim exercises them. -/
def join_files_single_streaming (dir : PartsDir) (buf : Nat) : JoinResult :=
  match dir.info with
  | none => ⟨none, some .noInfo⟩
  | some lines =>
    match parse_info lines with
    | .error _ => ⟨none, some .valueError⟩
    | .ok info =>
      if infoInvalid info then ⟨none, some .formatError⟩
      else
        join_single_loop dir.parts info.chunk_size.toNat buf 1 info.parts_count.toNat
          (List.replicate info.original_size.toNat 0)

/-- The `part_infos` existence scan of the concurrent join: first missing
index in `range(1, parts_count + 1)`, if any. -/
def check_parts (parts : Nat → Option ByteSeq) : Nat → Nat → Option Nat
  | _, 0 => none
  | i, count + 1 =>
    match parts i with
    | none => some i
    | some _ => check_parts parts (i + 1) count

/-- The message sequences the `parts_count` reader workers emit, one queue
per part, with the positions and sizes the orchestrator hands them. -/
def reader_queues (parts : Nat → Option ByteSeq) (pc C buf : Nat) : List (List RawMsg) :=
  (List.range' 1 pc).map fun i =>
    read_part_worker_streaming i (parts i) ((i - 1) * C) ((parts i).getD []).length buf

/-- `join_files_multithreaded_streaming(parts_directory, output_file,
max_workers, buffer_size)`.  The output file is created and truncated to
`original_size` before the part files' existence is checked.  `events` is
the order in which the readers' messages reach the writer; theorems
quantify over every interleaving of the reader queues. -/
def join_files_multithreaded_streaming (dir : PartsDir) (buf : Nat)
    (events : List RawMsg) : JoinResult :=
  match dir.info with
  | none => ⟨none, some .noInfo⟩
  | some lines =>
    match parse_info lines with
    | .error _ => ⟨none, some .valueError⟩
    | .ok info =>
      if infoInvalid info then ⟨none, some .formatError⟩
      else
        let init := List.replicate info.original_size.toNat 0
        match check_parts dir.parts 1 info.parts_count.toNat with
        | some i => ⟨some init, some (.missingPart i)⟩
        | none =>
          ⟨some (write_part_worker_streaming info.parts_count.toNat (events.map some)
            ⟨0, init⟩).1.file, none⟩

/-- `out` is an interleaving of the queues `qs`: at each step one queue's
head message is delivered, preserving each queue's internal order. -/
inductive Interleave {α : Type} : List (List α) → List α → Prop
  | done (qs : List (List α)) : (∀ q ∈ qs, q = []) → Interleave qs []
  | step (qs : List (List α)) (i : Nat) (x : α) (q : List α) (out : List α) :
      qs[i]? = some (x :: q) → Interleave (qs.set i q) out → Interleave qs (x :: out)

/-- The parts directory produced by a successful split. -/
def dirOfSplit (r : SplitResult) : PartsDir :=
  { info := some (manifest_lines r.manifest)
    parts := fun i => if i = 0 then none else r.parts[i - 1]? }

/-- The positioned writes the writer performs on a message sequence (the
messages whose `error` is falsy). -/
def dataWrites (es : List RawMsg) : List (Nat × ByteSeq) :=
  es.filterMap fun m =>
    if isTruthy m.error then none else some (m.position.getD 0, m.data.getD [])

/-! ## Characterizing the split -/
/-- Specification-side decomposition of a byte sequence into chunks of `C`. -/
def partsOf (l : ByteSeq) (C : Nat) : List ByteSeq :=
  if h : C = 0 ∨ l = [] then [] else l.take C :: partsOf (l.drop C) C
termination_by l.length
decreasing_by
  simp only [List.length_drop]
  have hl : 0 < l.length := List.length_pos.mpr (by tauto)
  omega

/-- The positioned whole-part writes the single join performs for indices
`i, i+1, …, i+count-1`. -/
def partWritesR (parts : Nat → Option ByteSeq) (C i count : Nat) : List (Nat × ByteSeq) :=
  (List.range' i count).map fun k => ((k - 1) * C, (parts k).getD [])

/-- The write set of a split, as the joins position it. -/
def splitWrites (content : ByteSeq) (C : Nat) : List (Nat × ByteSeq) :=
  (List.range' 1 (partsOf content C).length).map
    fun k => ((k - 1) * C, ((partsOf content C)[k - 1]?).getD [])

/-- A reader queue for a present part: data messages then one COMPLETED. -/
def ShapeQ (q : List RawMsg) : Prop :=
  ∃ ds pn, q = ds ++ [⟨pn, none, none, some cCOMPLETED⟩] ∧ ∀ m ∈ ds, m.error = none

/-! ## What drives the writer's termination -/
/-- Number of messages the writer's count-based termination counts: only
those whose `error` field is the exact string `"COMPLETED"`. -/
def countCompleted (es : List RawMsg) : Nat :=
  es.countP (fun m => m.error == some cCOMPLETED)

/-! ## Claim C2 -/
/-- A concrete run refuting count-based termination on all terminal messages:
one part, and a terminal failed message (non-empty error text) for part 1 is
delivered, followed by a queue timeout. -/
def c2events : List (Option RawMsg) :=
  [some ⟨1, none, none, some ('b' :: 'o' :: 'o' :: 'm' :: [])⟩, none]

/-! ## Claim C3 -/
/-- A manifest that is missing the required key `original_size:` (and
`original_hash:`), with part 1 present. -/
def c3lines : List (List Char) :=
  [keyName ++ ('f' :: []),
   keyParts ++ ('1' :: []),
   keyChunk ++ ('5' :: [])]

def c3dir : PartsDir :=
  { info := some c3lines
    parts := fun i => if i = 1 then some [7, 8] else none }

/-- A manifest whose only key sets `parts_count` to 0 (invalid format). -/
def c3wlines : List (List Char) := [keyParts ++ ('0' :: [])]

/-- The split of the 3-byte file `[1, 2, 3]` with chunk size 2. -/
def exSplit : SplitResult :=
  { parts := [[1, 2], [3]]
    manifest := { original_name := 'f' :: []
                  parts_count := 2
                  original_size := 3
                  chunk_size := 2
                  original_hash := none } }

/-- A directory whose manifest names one part of size 2, with every part
file missing. -/
def missLines : List (List Char) :=
  [keyName ++ ('f' :: []),
   keyParts ++ ('1' :: []),
   keySize ++ ('2' :: []),
   keyChunk ++ ('2' :: [])]

def missDir : PartsDir := ⟨some missLines, fun _ => none⟩

/-- A parts directory all of whose parts exist, but whose first part file
holds 2 bytes while the manifest's chunk size is 1: the parts' ranges, as
positioned by the joins, overlap. -/
def c7dir : PartsDir :=
  { info := some [keyName ++ ('f' :: []),
      keyParts ++ ('2' :: []),
      keySize ++ ('3' :: []),
      keyChunk ++ ('1' :: [])]
    parts := fun i => if i = 1 then some [1, 2]
      else if i = 2 then some [3, 4] else none }

/-- Printable ASCII.  On strings of such characters Python's `str.strip()`
strips exactly the blanks `pyStrip` strips (no Unicode or control
whitespace is present), so the model's stripping and emptiness tests agree
with the program's. -/
def printableAscii (l : List Char) : Prop :=
  ∀ ch ∈ l, 0x20 ≤ ch.toNat ∧ ch.toNat < 0x7f

instance (l : List Char) : Decidable (printableAscii l) := by
  unfold printableAscii
  infer_instance

/-- A manifest line on which the model's parsing agrees with Python's:
printable ASCII, and no numeric-underscore notation (`int("1_0") = 10`,
which `parsePyInt` does not model) in a value handed to `int(...)`. -/
def faithfulLine (l : List Char) : Prop :=
  printableAscii l ∧
  (keyParts.isPrefixOf l → ('_' : Char) ∉ l.drop keyParts.length) ∧
  (keySize.isPrefixOf l → ('_' : Char) ∉ l.drop keySize.length) ∧
  (keyChunk.isPrefixOf l → ('_' : Char) ∉ l.drop keyChunk.length)

instance (l : List Char) : Decidable (faithfulLine l) := by
  unfold faithfulLine printableAscii
  infer_instance

/-- A size-consistent two-part directory: sizes 2 and 1, chunk size 2,
original size 3. -/
def c7wdir : PartsDir :=
  { info := some [keyName ++ ('f' :: []), keyParts ++ ('2' :: []),
      keySize ++ ('3' :: []), keyChunk ++ ('2' :: [])]
    parts := fun i => if i = 1 then some [1, 2]
      else if i = 2 then some [3] else none }

theorem disjW_symm : Symmetric disjW := by
  intro w w' h; cases h with
  | inl h => exact Or.inr h
  | inr h => exact Or.inl h

theorem not_covers_of_disjW {w w' : Nat × ByteSeq} {j : Nat}
    (hd : disjW w w') (hc : covers w j) : ¬ covers w' j := by
  rcases hc with ⟨h1, h2⟩
  rcases hd with h | h
  · exact fun hc' => absurd hc'.1 (by omega)
  · exact fun hc' => absurd hc'.2 (by omega)

/-- The prefix of `writeAt` before the written data always has length `pos`. -/
theorem length_writeAt_front (f : ByteSeq) (pos : Nat) :
    (f.take pos ++ List.replicate (pos - f.length) 0).length = pos := by
  simp [List.length_take]
  omega

theorem length_writeAt (f : ByteSeq) (pos : Nat) (d : ByteSeq) :
    (writeAt f pos d).length = max (pos + d.length) f.length := by
  simp [writeAt, List.length_take]
  omega

theorem length_writeAt_of_le {f : ByteSeq} {pos : Nat} {d : ByteSeq}
    (h : pos + d.length ≤ f.length) : (writeAt f pos d).length = f.length := by
  rw [length_writeAt]; omega

theorem getElem?_writeAt_covered (f : ByteSeq) {pos : Nat} (d : ByteSeq) {j : Nat}
    (h1 : pos ≤ j) (h2 : j < pos + d.length) :
    (writeAt f pos d)[j]? = d[j - pos]? := by
  unfold writeAt
  rw [List.append_assoc, List.getElem?_append_right (by rw [length_writeAt_front]; omega)]
  rw [length_writeAt_front]
  rw [List.getElem?_append_left (by omega)]

theorem getElem?_writeAt_low (f : ByteSeq) {pos : Nat} (d : ByteSeq) {j : Nat}
    (hj : j < pos) (hpos : pos ≤ f.length) :
    (writeAt f pos d)[j]? = f[j]? := by
  unfold writeAt
  rw [List.append_assoc, List.getElem?_append_left (by rw [length_writeAt_front]; omega)]
  rw [List.getElem?_append_left (by simp [List.length_take]; omega)]
  rw [List.getElem?_take_of_lt hj]

theorem getElem?_writeAt_high (f : ByteSeq) {pos : Nat} (d : ByteSeq) {j : Nat}
    (hj : pos + d.length ≤ j) :
    (writeAt f pos d)[j]? = f[j]? := by
  unfold writeAt
  rw [List.append_assoc, List.getElem?_append_right (by rw [length_writeAt_front]; omega)]
  rw [length_writeAt_front]
  rw [List.getElem?_append_right (by omega)]
  rw [List.getElem?_drop]
  congr 1
  omega

theorem getElem?_writeAt_not_covered (f : ByteSeq) {pos : Nat} (d : ByteSeq) {j : Nat}
    (h : ¬ covers (pos, d) j) (hpos : pos ≤ f.length) :
    (writeAt f pos d)[j]? = f[j]? := by
  unfold covers at h
  simp only [not_and, not_lt] at h
  by_cases hj : pos ≤ j
  · exact getElem?_writeAt_high f d (h hj)
  · exact getElem?_writeAt_low f d (by omega) hpos

theorem length_applyWrites {ws : List (Nat × ByteSeq)} {f : ByteSeq} {S : Nat}
    (hb : InBounds ws S) (hf : f.length = S) : (applyWrites ws f).length = S := by
  induction ws generalizing f with
  | nil => simpa [applyWrites]
  | cons w ws ih =>
      have hw := hb w (List.mem_cons_self _ _)
      have : (writeAt f w.1 w.2).length = S := by rw [length_writeAt]; omega
      exact ih (fun x hx => hb x (List.mem_cons_of_mem _ hx)) this

theorem getElem?_applyWrites_not_covered {ws : List (Nat × ByteSeq)} {f : ByteSeq} {S : Nat}
    (hb : InBounds ws S) (hf : f.length = S) {j : Nat}
    (h : ∀ w ∈ ws, ¬ covers w j) : (applyWrites ws f)[j]? = f[j]? := by
  induction ws generalizing f with
  | nil => simp [applyWrites]
  | cons w ws ih =>
      have hw := hb w (List.mem_cons_self _ _)
      have hlen : (writeAt f w.1 w.2).length = S := by rw [length_writeAt]; omega
      have step : (applyWrites (w :: ws) f) = applyWrites ws (writeAt f w.1 w.2) := rfl
      rw [step, ih (fun x hx => hb x (List.mem_cons_of_mem _ hx)) hlen
        (fun x hx => h x (List.mem_cons_of_mem _ hx))]
      exact getElem?_writeAt_not_covered f w.2 (h w (List.mem_cons_self _ _)) (by omega)

theorem getElem?_applyWrites_covered {ws : List (Nat × ByteSeq)} {f : ByteSeq} {S : Nat}
    (hb : InBounds ws S) (hf : f.length = S) (hp : ws.Pairwise disjW)
    {w : Nat × ByteSeq} (hw : w ∈ ws) {j : Nat} (hc : covers w j) :
    (applyWrites ws f)[j]? = w.2[j - w.1]? := by
  induction ws generalizing f with
  | nil => cases hw
  | cons w' ws ih =>
      have hw' := hb w' (List.mem_cons_self _ _)
      have hlen : (writeAt f w'.1 w'.2).length = S := by rw [length_writeAt]; omega
      have step : (applyWrites (w' :: ws) f) = applyWrites ws (writeAt f w'.1 w'.2) := rfl
      rcases List.mem_cons.mp hw with rfl | hmem
      · rw [step, getElem?_applyWrites_not_covered
          (fun x hx => hb x (List.mem_cons_of_mem _ hx)) hlen
          (fun x hx => not_covers_of_disjW ((List.pairwise_cons.mp hp).1 x hx) hc)]
        exact getElem?_writeAt_covered f w.2 hc.1 hc.2
      · rw [step]
        exact ih (fun x hx => hb x (List.mem_cons_of_mem _ hx)) hlen
          (List.pairwise_cons.mp hp).2 hmem

/-- Writing a pairwise-disjoint, in-bounds family of writes that jointly
supply every byte of `content` onto a zero file of the right length
reconstructs `content`, whatever the order of the writes. -/
theorem applyWrites_reconstructs {ws : List (Nat × ByteSeq)} {content : ByteSeq}
    (hb : InBounds ws content.length) (hp : ws.Pairwise disjW)
    (hc : CoversAll ws content) :
    applyWrites ws (List.replicate content.length 0) = content := by
  have hf : (List.replicate content.length (0 : Nat)).length = content.length := by simp
  apply List.ext_getElem?
  intro j
  by_cases hj : j < content.length
  · obtain ⟨w, hw, hcov, hbyte⟩ := hc j hj
    rw [getElem?_applyWrites_covered hb hf hp hw hcov, hbyte]
  · have h1 : (applyWrites ws (List.replicate content.length 0)).length = content.length :=
      length_applyWrites hb hf
    rw [List.getElem?_eq_none (by omega), List.getElem?_eq_none (by omega)]

theorem toDigitsSimple_ne_nil (n : Nat) : toDigitsSimple n ≠ [] := by
  unfold toDigitsSimple
  split <;> simp

theorem mem_toDigitsSimple {n : Nat} {c : Char} (h : c ∈ toDigitsSimple n) :
    ∃ d, d < 10 ∧ c = Nat.digitChar d := by
  induction n using Nat.strong_induction_on with
  | _ n ih =>
    unfold toDigitsSimple at h
    split at h
    · next hn => simp at h; exact ⟨n, hn, h⟩
    · next hn =>
      rcases List.mem_append.mp h with h' | h'
      · exact ih (n / 10) (Nat.div_lt_self (by omega) (by omega)) h'
      · simp at h'; exact ⟨n % 10, Nat.mod_lt _ (by omega), h'⟩

theorem toDigitsCore_eq_toDigitsSimple :
    ∀ (fuel n : Nat) (ds : List Char), 0 < fuel → n < 10 ^ fuel →
      Nat.toDigitsCore 10 fuel n ds = toDigitsSimple n ++ ds := by
  intro fuel
  induction fuel with
  | zero => omega
  | succ f ih =>
    intro n ds _ hlt
    show Nat.toDigitsCore 10 (f + 1) n ds = _
    unfold Nat.toDigitsCore
    by_cases h0 : n / 10 = 0
    · have hn : n < 10 := by omega
      rw [if_pos h0]
      unfold toDigitsSimple
      rw [dif_pos hn]
      simp [Nat.mod_eq_of_lt hn]
    · rw [if_neg h0]
      have hf : 0 < f := by
        by_contra hf
        have : f = 0 := by omega
        subst this
        simp at hlt
        omega
      have hdiv : n / 10 < 10 ^ f := by
        rw [Nat.div_lt_iff_lt_mul (by omega)]
        calc n < 10 ^ (f + 1) := hlt
        _ = 10 ^ f * 10 := by ring
      rw [ih (n / 10) (Nat.digitChar (n % 10) :: ds) hf hdiv]
      conv_rhs => unfold toDigitsSimple
      rw [dif_neg (by omega)]
      simp

theorem toDigits_eq_toDigitsSimple (n : Nat) :
    Nat.toDigits 10 n = toDigitsSimple n := by
  have h : n < 10 ^ (n + 1) := by
    calc n < 10 ^ n := Nat.lt_pow_self (by omega) n
    _ ≤ 10 ^ (n + 1) := Nat.pow_le_pow_right (by omega) (by omega)
  rw [Nat.toDigits, toDigitsCore_eq_toDigitsSimple (n + 1) n [] (by omega) h,
    List.append_nil]

theorem digitVal?_digitChar : ∀ d, d < 10 → digitVal? (Nat.digitChar d) = some d := by
  decide

theorem digitChar_not_space : ∀ d, d < 10 → pyIsSpace (Nat.digitChar d) = false := by
  decide

theorem digitChar_ne_sign : ∀ d, d < 10 →
    Nat.digitChar d ≠ '-' ∧ Nat.digitChar d ≠ '+' := by
  decide

theorem dropWhile_eq_self_of_all {p : Char → Bool} {s : List Char}
    (h : ∀ c ∈ s, p c = false) : s.dropWhile p = s := by
  cases s with
  | nil => rfl
  | cons c cs => simp [List.dropWhile_cons, h c (List.mem_cons_self _ _)]

theorem pyStrip_eq_self_of_all {s : List Char}
    (h : ∀ c ∈ s, pyIsSpace c = false) : pyStrip s = s := by
  unfold pyStrip
  rw [dropWhile_eq_self_of_all h,
    dropWhile_eq_self_of_all (by intro c hc; exact h c (List.mem_reverse.mp hc)),
    List.reverse_reverse]

theorem parseDigitsLoop_toDigitsSimple :
    ∀ (n acc : Nat) (rest : List Char),
      parseDigitsLoop acc (toDigitsSimple n ++ rest) =
        parseDigitsLoop (acc * pow10len n + n) rest := by
  intro n
  induction n using Nat.strong_induction_on with
  | _ n ih =>
    intro acc rest
    by_cases hn : n < 10
    · have ht : toDigitsSimple n = [Nat.digitChar n] := by
        unfold toDigitsSimple; rw [dif_pos hn]
      have hp : pow10len n = 10 := by
        unfold pow10len; rw [dif_pos hn]
      rw [ht, hp, List.singleton_append]
      conv_lhs => rw [parseDigitsLoop]
      rw [digitVal?_digitChar n hn]
    · have ht : toDigitsSimple n = toDigitsSimple (n / 10) ++ [Nat.digitChar (n % 10)] := by
        conv_lhs => unfold toDigitsSimple
        rw [dif_neg hn]
      have hp : pow10len n = pow10len (n / 10) * 10 := by
        conv_lhs => unfold pow10len
        rw [dif_neg hn]
      rw [ht, List.append_assoc, List.singleton_append,
        ih (n / 10) (Nat.div_lt_self (by omega) (by omega))]
      conv_lhs => rw [parseDigitsLoop]
      rw [digitVal?_digitChar (n % 10) (Nat.mod_lt _ (by omega))]
      show parseDigitsLoop ((acc * pow10len (n / 10) + n / 10) * 10 + n % 10) rest = _
      rw [hp]
      congr 1
      have h2 := Nat.div_add_mod n 10
      rw [← Nat.mul_assoc]
      omega

theorem parseDigits_toDigitsSimple (n : Nat) : parseDigits (toDigitsSimple n) = some n := by
  obtain ⟨c, cs, h⟩ : ∃ c cs, toDigitsSimple n = c :: cs := by
    cases hh : toDigitsSimple n with
    | nil => exact absurd hh (toDigitsSimple_ne_nil n)
    | cons c cs => exact ⟨c, cs, rfl⟩
  rw [h]
  show parseDigitsLoop 0 (c :: cs) = some n
  rw [← h, ← List.append_nil (toDigitsSimple n), parseDigitsLoop_toDigitsSimple]
  show some (0 * pow10len n + n) = some n
  rw [Nat.zero_mul, Nat.zero_add]

/-- `int(str(n)) == n` for a natural number: the decimal digits the splitter
writes into the manifest parse back to the same value. -/
theorem parsePyInt_toDigits (n : Nat) : parsePyInt (Nat.toDigits 10 n) = some (n : Int) := by
  rw [toDigits_eq_toDigitsSimple]
  have hall : ∀ c ∈ toDigitsSimple n, pyIsSpace c = false := by
    intro c hc
    obtain ⟨d, hd, rfl⟩ := mem_toDigitsSimple hc
    exact digitChar_not_space d hd
  have hstrip : pyStrip (toDigitsSimple n) = toDigitsSimple n := pyStrip_eq_self_of_all hall
  obtain ⟨c, cs, h⟩ : ∃ c cs, toDigitsSimple n = c :: cs := by
    cases hh : toDigitsSimple n with
    | nil => exact absurd hh (toDigitsSimple_ne_nil n)
    | cons c cs => exact ⟨c, cs, rfl⟩
  have hcmem : c ∈ toDigitsSimple n := by rw [h]; exact List.mem_cons_self _ _
  obtain ⟨d, hd, hcd⟩ := mem_toDigitsSimple hcmem
  unfold parsePyInt
  rw [hstrip, h]
  show (if c = '-' then (parseDigits cs).map (fun v => -(v : Int))
    else if c = '+' then (parseDigits cs).map (fun v => (v : Int))
    else (parseDigits (c :: cs)).map (fun v => (v : Int))) = some (n : Int)
  rw [if_neg (by rw [hcd]; exact (digitChar_ne_sign d hd).1),
    if_neg (by rw [hcd]; exact (digitChar_ne_sign d hd).2)]
  rw [← h, parseDigits_toDigitsSimple]
  rfl

theorem length_compressRound (st : List Nat) (kw : Nat × Nat) :
    (compressRound st kw).length = st.length := by
  unfold compressRound
  rcases st with _ | ⟨a, _ | ⟨b, _ | ⟨c, _ | ⟨d, _ | ⟨e, _ | ⟨f, _ | ⟨g, _ | ⟨h, _ | ⟨i, t⟩⟩⟩⟩⟩⟩⟩⟩⟩ <;> rfl

theorem length_foldl_compressRound (l : List (Nat × Nat)) (st : List Nat) :
    (l.foldl compressRound st).length = st.length := by
  induction l generalizing st with
  | nil => rfl
  | cons kw l ih => rw [List.foldl_cons, ih, length_compressRound]

theorem length_compressBlock (H : List Nat) (block : ByteSeq) :
    (compressBlock H block).length = min H.length H.length := by
  unfold compressBlock
  rw [List.length_map, List.length_zip, length_foldl_compressRound]

theorem length_sha256words (msg : ByteSeq) : (sha256words msg).length = 8 := by
  unfold sha256words
  generalize splitBlocks (sha256pad msg) (sha256pad msg).length = blocks
  induction blocks using List.reverseRecOn with
  | nil => rfl
  | append_singleton bs b ih =>
      rw [List.foldl_append, List.foldl_cons, List.foldl_nil, length_compressBlock, ih]
      omega

/-- The hexdigest always has exactly 64 characters. -/
theorem length_sha256hex (msg : ByteSeq) : (sha256hex msg).length = 64 := by
  unfold sha256hex
  have h8 := length_sha256words msg
  have : ∀ (l : List Nat),
      (l.foldr (fun w acc => wordHex w ++ acc) []).length = 8 * l.length := by
    intro l
    induction l with
    | nil => rfl
    | cons w l ih =>
        rw [List.foldr_cons, List.length_append, ih, List.length_cons]
        show 8 + 8 * l.length = 8 * (l.length + 1)
        omega
  rw [this, h8]

theorem split_part_loop_eq (content : ByteSeq) :
    ∀ (fuel written remaining buf : Nat), 0 < buf → remaining ≤ fuel →
      split_part_loop content written remaining buf fuel =
        ((content.drop written).take (min remaining (content.length - written)),
         written + min remaining (content.length - written)) := by
  intro fuel
  induction fuel with
  | zero =>
      intro written remaining buf hbuf hle
      have hr : remaining = 0 := by omega
      subst hr
      simp [split_part_loop]
  | succ fuel ih =>
      intro written remaining buf hbuf hle
      simp only [split_part_loop]
      by_cases h1 : remaining = 0 ∨ content.length ≤ written
      · rw [if_pos h1]
        have hm : min remaining (content.length - written) = 0 := by omega
        rw [hm]
        simp
      · rw [if_neg h1]
        push_neg at h1
        obtain ⟨hr, hw⟩ := h1
        have hw' : written < content.length := by omega
        have hrpos : 0 < remaining := by omega
        have hrs : 0 < min buf (min remaining (content.length - written)) := by
          simp only [Nat.lt_min]
          omega
        have hlen : ((content.drop written).take
            (min buf (min remaining (content.length - written)))).length =
            min buf (min remaining (content.length - written)) := by
          rw [List.length_take, List.length_drop]
          omega
        rw [if_neg (by intro hnil; rw [hnil] at hlen; simp at hlen; omega)]
        rw [hlen]
        rw [ih (written + min buf (min remaining (content.length - written)))
          (remaining - min buf (min remaining (content.length - written))) buf hbuf (by omega)]
        have hmm : min (remaining - min buf (min remaining (content.length - written)))
            (content.length - (written + min buf (min remaining (content.length - written)))) =
            min remaining (content.length - written) -
              min buf (min remaining (content.length - written)) := by
          omega
        rw [hmm]
        dsimp only
        rw [Prod.mk.injEq]
        refine ⟨?_, by omega⟩
        rw [show content.drop
            (written + min buf (min remaining (content.length - written))) =
            (content.drop written).drop
              (min buf (min remaining (content.length - written))) from
          (List.drop_drop _ _ _).symm]
        rw [← List.take_add]
        congr 1
        omega

theorem split_parts_loop_eq (content : ByteSeq) (C buf : Nat) (hC : 0 < C) (hbuf : 0 < buf) :
    ∀ (fuel written : Nat), content.length - written ≤ fuel →
      split_parts_loop content C buf written fuel = partsOf (content.drop written) C := by
  intro fuel
  induction fuel with
  | zero =>
      intro written hle
      have hd : content.drop written = [] := List.drop_eq_nil_of_le (by omega)
      rw [hd]
      unfold partsOf
      rw [dif_pos (Or.inr rfl)]
      rfl
  | succ fuel ih =>
      intro written hle
      simp only [split_parts_loop]
      by_cases h1 : content.length ≤ written
      · rw [if_pos h1]
        have hd : content.drop written = [] := List.drop_eq_nil_of_le h1
        rw [hd]
        unfold partsOf
        rw [dif_pos (Or.inr rfl)]
      · rw [if_neg h1]
        push_neg at h1
        rw [split_part_loop_eq content (C + 1) written C buf hbuf (by omega)]
        dsimp only
        have hM : min C (content.length - written) ≤ C := Nat.min_le_left _ _
        have hMpos : 0 < min C (content.length - written) := by omega
        conv_rhs => unfold partsOf
        rw [dif_neg (by
          push_neg
          refine ⟨by omega, ?_⟩
          intro hnil
          rw [List.drop_eq_nil_iff] at hnil
          omega)]
        have htk : (content.drop written).take (min C (content.length - written)) =
            (content.drop written).take C := by
          rw [List.take_eq_take]
          rw [List.length_drop]
          omega
        rw [htk]
        congr 1
        rw [ih (written + min C (content.length - written)) (by omega)]
        congr 1
        by_cases hcase : C ≤ content.length - written
        · rw [show min C (content.length - written) = C by omega]
          rw [List.drop_drop]
        · rw [List.drop_drop]
          rw [List.drop_eq_nil_of_le (by omega), List.drop_eq_nil_of_le (by omega)]

/-- With positive chunk and buffer sizes, a non-empty file splits into
exactly the `C`-chunk decomposition of its contents, and the manifest
records the byte counts the splitter saw. -/
theorem split_file_eq (content : ByteSeq) (base_name : List Char) (C buf : Nat)
    (hne : content ≠ []) (hC : 0 < C) (hbuf : 0 < buf) :
    split_file content base_name C false buf =
      some { parts := partsOf content C
             manifest := { original_name := base_name
                           parts_count := (partsOf content C).length
                           original_size := content.length
                           chunk_size := C
                           original_hash := none } } := by
  unfold split_file
  rw [if_neg (by simp [hne])]
  rw [show (if false = true then some (calculate_file_hash content 8192) else none) = none
    from rfl]
  rw [split_parts_loop_eq content C buf hC hbuf content.length 0 (by omega), List.drop_zero]

theorem partsOf_getElem? (C : Nat) (hC : 0 < C) :
    ∀ (l : ByteSeq) (i : Nat),
      (partsOf l C)[i]? =
        if i * C < l.length then some ((l.drop (i * C)).take C) else none := by
  suffices h : ∀ (n : Nat) (l : ByteSeq), l.length = n → ∀ i : Nat,
      (partsOf l C)[i]? =
        if i * C < l.length then some ((l.drop (i * C)).take C) else none by
    intro l i
    exact h l.length l rfl i
  intro n
  induction n using Nat.strong_induction_on with
  | _ n ih =>
    intro l hn i
    by_cases hl : l = []
    · subst hl
      unfold partsOf
      rw [dif_pos (Or.inr rfl)]
      simp
    · have hlp : 0 < l.length := List.length_pos.mpr hl
      unfold partsOf
      rw [dif_neg (by push_neg; exact ⟨by omega, hl⟩)]
      cases i with
      | zero =>
          simp only [List.getElem?_cons_zero, Nat.zero_mul, List.drop_zero]
          rw [if_pos (by omega)]
      | succ j =>
          rw [List.getElem?_cons_succ]
          rw [ih (l.drop C).length (by rw [List.length_drop]; omega) (l.drop C) rfl j]
          rw [List.length_drop, List.drop_drop]
          have harith : (j + 1) * C = C + j * C := by ring
      
          by_cases hcond : j * C < l.length - C
          · rw [if_pos hcond, if_pos (by omega), harith]
          · rw [if_neg hcond, if_neg (by omega)]

theorem partsOf_length (C : Nat) (hC : 0 < C) :
    ∀ l : ByteSeq, (partsOf l C).length = (l.length + C - 1) / C := by
  suffices h : ∀ (n : Nat) (l : ByteSeq), l.length = n →
      (partsOf l C).length = (l.length + C - 1) / C by
    intro l
    exact h l.length l rfl
  intro n
  induction n using Nat.strong_induction_on with
  | _ n ih =>
    intro l hn
    by_cases hl : l = []
    · subst hl
      unfold partsOf
      rw [dif_pos (Or.inr rfl)]
      simp [Nat.div_eq_of_lt (by omega : C - 1 < C)]
    · have hlp : 0 < l.length := List.length_pos.mpr hl
      unfold partsOf
      rw [dif_neg (by push_neg; exact ⟨by omega, hl⟩)]
      rw [List.length_cons, ih (l.drop C).length (by rw [List.length_drop]; omega)
        (l.drop C) rfl, List.length_drop]
      by_cases hcase : C < l.length
      · have hsplit : l.length + C - 1 = (l.length - C + C - 1) + C := by omega
        rw [hsplit, Nat.add_div_right _ hC]
      · have h1 : l.length - C = 0 := by omega
        rw [h1]
        rw [Nat.div_eq_of_lt (by omega : 0 + C - 1 < C)]
        have h2 : l.length + C - 1 = (l.length - 1) + C := by omega
        rw [h2, Nat.add_div_right _ hC, Nat.div_eq_of_lt (by omega : l.length - 1 < C)]

/-- The ceiling bound: with `N = ⌈n / C⌉` parts, `C * (N - 1) < n ≤ C * N`. -/
theorem ceil_div_bounds (n C : Nat) (hC : 0 < C) (hn : 0 < n) :
    C * ((n + C - 1) / C - 1) < n ∧ n ≤ C * ((n + C - 1) / C) := by
  have hdm := Nat.div_add_mod (n + C - 1) C
  have hmod : (n + C - 1) % C < C := Nat.mod_lt _ hC
  rcases hN : (n + C - 1) / C with _ | M
  · rw [hN] at hdm
    omega
  · rw [hN] at hdm
    have hmul : C * (M + 1) = C * M + C := by ring
    have hred : M + 1 - 1 = M := by omega
    rw [hred]
    omega

/-- Sizes of the split parts: every part except the last has exactly
`chunk_size` bytes; part `i` (0-based) holds `min C (len - i*C)` bytes. -/
theorem partsOf_size (C : Nat) (hC : 0 < C) (l : ByteSeq) (i : Nat)
    (hi : i * C < l.length) :
    ((partsOf l C)[i]?.map List.length) = some (min C (l.length - i * C)) := by
  rw [partsOf_getElem? C hC l i, if_pos hi]
  simp [List.length_take, List.length_drop]

theorem partsOf_mem_size (C : Nat) (hC : 0 < C) (l : ByteSeq) {i : Nat} {p : ByteSeq}
    (h : (partsOf l C)[i]? = some p) :
    i * C < l.length ∧ p.length = min C (l.length - i * C) := by
  rw [partsOf_getElem? C hC l i] at h
  by_cases hcond : i * C < l.length
  · rw [if_pos hcond] at h
    refine ⟨hcond, ?_⟩
    cases h
    simp [List.length_take, List.length_drop]
  · rw [if_neg hcond] at h
    cases h

/-- C4: a non-empty file of size `S` split with chunk size `C > 0` yields
exactly `⌈S/C⌉` parts; every part except the last has exactly `C` bytes,
the last has `S - (partsCount-1)*C` bytes, and the manifest's recorded
values satisfy `chunkSize * (partsCount-1) < originalSize ≤
chunkSize * partsCount`. -/
theorem c4_split_part_count_and_sizes (content : ByteSeq) (base_name : List Char)
    (C buf : Nat) (r : SplitResult)
    (hne : content ≠ []) (hC : 0 < C) (hbuf : 0 < buf)
    (hsplit : split_file content base_name C false buf = some r) :
    r.parts.length = (content.length + C - 1) / C ∧
    r.manifest.parts_count = r.parts.length ∧
    r.manifest.original_size = content.length ∧
    r.manifest.chunk_size = C ∧
    (r.parts[r.parts.length - 1]?.map List.length) =
      some (content.length - (r.parts.length - 1) * C) ∧
    (∀ i, i + 1 < r.parts.length → (r.parts[i]?.map List.length) = some C) ∧
    r.manifest.chunk_size * (r.manifest.parts_count - 1) < r.manifest.original_size ∧
    r.manifest.original_size ≤ r.manifest.chunk_size * r.manifest.parts_count := by
  rw [split_file_eq content base_name C buf hne hC hbuf] at hsplit
  cases hsplit
  have hL : 0 < content.length := List.length_pos.mpr hne
  have hlen : (partsOf content C).length = (content.length + C - 1) / C :=
    partsOf_length C hC content
  have hb := ceil_div_bounds content.length C hC hL
  rw [← hlen] at hb
  obtain ⟨M, hM⟩ : ∃ M, (partsOf content C).length = M + 1 := by
    rcases h : (partsOf content C).length with _ | M
    · exfalso
      rw [h] at hb
      have h2 := hb.2
      simp at h2
      omega
    · exact ⟨M, rfl⟩
  have hcm : C * M = M * C := Nat.mul_comm _ _
  rw [hM] at hb
  simp only [Nat.add_sub_cancel] at hb
  refine ⟨hlen, rfl, rfl, rfl, ?_, ?_, ?_, ?_⟩
  · show (partsOf content C)[(partsOf content C).length - 1]?.map List.length = _
    rw [hM]
    simp only [Nat.add_sub_cancel]
    rw [partsOf_size C hC content M (by omega)]
    congr 1
    have hCM1 : C * (M + 1) = C * M + C := by ring
    omega
  · intro i hi
    rw [hM] at hi
    have hiM : i + 1 ≤ M := by omega
    have h1 : (i + 1) * C ≤ M * C := Nat.mul_le_mul_right C hiM
    have h2 : (i + 1) * C = i * C + C := by ring
    rw [partsOf_size C hC content i (by omega)]
    congr 1
    omega
  · show C * ((partsOf content C).length - 1) < content.length
    rw [hM]
    simpa using hb.1
  · show content.length ≤ C * (partsOf content C).length
    rw [hM]
    exact hb.2

/-- C6: the byte ranges of the split parts, as positioned by the joins at
absolute offset `(index-1)*chunkSize` (0-based: `i*C`) with their on-disk
sizes, are pairwise disjoint, contiguous in index order, and exactly cover
`[0, originalSize)`. -/
theorem c6_part_ranges_disjoint_contiguous_cover (content : ByteSeq)
    (base_name : List Char) (C buf : Nat) (r : SplitResult)
    (hne : content ≠ []) (hC : 0 < C) (hbuf : 0 < buf)
    (hsplit : split_file content base_name C false buf = some r) :
    (∀ i j pi pj, i ≠ j → r.parts[i]? = some pi → r.parts[j]? = some pj →
      i * C + pi.length ≤ j * C ∨ j * C + pj.length ≤ i * C) ∧
    (∀ i pi, r.parts[i]? = some pi → i + 1 < r.parts.length →
      i * C + pi.length = (i + 1) * C) ∧
    (∀ b, b < content.length ↔
      ∃ i pi, r.parts[i]? = some pi ∧ i * C ≤ b ∧ b < i * C + pi.length) := by
  rw [split_file_eq content base_name C buf hne hC hbuf] at hsplit
  cases hsplit
  have hL : 0 < content.length := List.length_pos.mpr hne
  refine ⟨?_, ?_, ?_⟩
  · intro i j pi pj hij hpi hpj
    obtain ⟨hi, hsi⟩ := partsOf_mem_size C hC content hpi
    obtain ⟨hj, hsj⟩ := partsOf_mem_size C hC content hpj
    rcases Nat.lt_or_ge i j with h | h
    · left
      have : (i + 1) * C ≤ j * C := Nat.mul_le_mul_right C (by omega)
      have h2 : (i + 1) * C = i * C + C := by ring
      omega
    · right
      have hji : j < i := by omega
      have : (j + 1) * C ≤ i * C := Nat.mul_le_mul_right C (by omega)
      have h2 : (j + 1) * C = j * C + C := by ring
      omega
  · intro i pi hpi hilt
    obtain ⟨hi, hsi⟩ := partsOf_mem_size C hC content hpi
    have hb := ceil_div_bounds content.length C hC hL
    rw [← partsOf_length C hC content] at hb
    have hilt' : i + 1 < (partsOf content C).length := hilt
    obtain ⟨M, hM⟩ : ∃ M, (partsOf content C).length = M + 1 :=
      ⟨(partsOf content C).length - 1, by omega⟩
    rw [hM] at hb
    simp only [Nat.add_sub_cancel] at hb
    have hiM : i + 1 ≤ M := by omega
    have h1 : (i + 1) * C ≤ M * C := Nat.mul_le_mul_right C hiM
    have hcm : C * M = M * C := Nat.mul_comm _ _
    have h2 : (i + 1) * C = i * C + C := by ring
    omega
  · intro b
    constructor
    · intro hb
      refine ⟨b / C, (content.drop (b / C * C)).take C, ?_, ?_, ?_⟩
      · rw [partsOf_getElem? C hC content (b / C),
          if_pos (by have := Nat.div_mul_le_self b C; omega)]
      · exact Nat.div_mul_le_self b C
      · have hdm := Nat.div_add_mod b C
        have hmod := Nat.mod_lt b hC
        have hcm : C * (b / C) = b / C * C := Nat.mul_comm _ _
        simp only [List.length_take, List.length_drop]
        omega
    · intro ⟨i, pi, hpi, hle, hlt⟩
      obtain ⟨hi, hsi⟩ := partsOf_mem_size C hC content hpi
      omega

/-! ## The single-threaded join computes positioned part writes -/
theorem writeAt_nil {f : ByteSeq} {pos : Nat} (h : pos ≤ f.length) :
    writeAt f pos [] = f := by
  unfold writeAt
  rw [show pos - f.length = 0 by omega]
  simp

/-- Two adjacent writes collapse into one: the sequential buffered writes
of the copy loop are one positioned write of the whole part. -/
theorem writeAt_writeAt (f : ByteSeq) (pos : Nat) (a b : ByteSeq) :
    writeAt (writeAt f pos a) (pos + a.length) b = writeAt f pos (a ++ b) := by
  have hP := length_writeAt_front f pos
  have hGlen := length_writeAt f pos a
  have htake : (writeAt f pos a).take (pos + a.length) =
      (f.take pos ++ List.replicate (pos - f.length) 0) ++ a := by
    unfold writeAt
    exact List.take_left' (by rw [List.length_append, hP])
  have hpad : pos + a.length - (writeAt f pos a).length = 0 := by
    rw [hGlen]; omega
  have hdrop : (writeAt f pos a).drop (pos + a.length + b.length) =
      f.drop (pos + a.length + b.length) := by
    unfold writeAt
    rw [show pos + a.length + b.length =
      ((f.take pos ++ List.replicate (pos - f.length) 0) ++ a).length + b.length by
        rw [List.length_append, hP]]
    rw [← List.drop_drop, List.drop_left, List.drop_drop]
    rw [List.length_append, hP]
  show ((writeAt f pos a).take (pos + a.length) ++
      List.replicate (pos + a.length - (writeAt f pos a).length) 0) ++ b ++
      (writeAt f pos a).drop (pos + a.length + b.length) = writeAt f pos (a ++ b)
  rw [htake, hpad, hdrop]
  show _ = (f.take pos ++ List.replicate (pos - f.length) 0) ++ (a ++ b) ++
      f.drop (pos + (a ++ b).length)
  rw [List.length_append]
  simp [List.append_assoc, Nat.add_assoc]

/-- The copy loop of the single join equals one whole-part write (with the
fuel it is invoked with, positive buffer, in-bounds write). -/
theorem copy_loop_eq :
    ∀ (fuel : Nat) (output : ByteSeq) (pos : Nat) (d : ByteSeq) (buf : Nat),
      0 < buf → d.length < fuel → pos + d.length ≤ output.length →
      copy_loop output pos d buf fuel = writeAt output pos d := by
  intro fuel
  induction fuel with
  | zero => intro output pos d buf hbuf hfuel hbound; omega
  | succ fuel ih =>
      intro output pos d buf hbuf hfuel hbound
      simp only [copy_loop]
      by_cases hd : d = []
      · subst hd
        rw [if_pos (by simp)]
        rw [writeAt_nil (by simpa using hbound)]
      · have hdl : 0 < d.length := List.length_pos.mpr hd
        have hcl : (d.take buf).length = min buf d.length := by
          simp [List.length_take]
        rw [if_neg (by
          intro hnil
          rw [hnil] at hcl
          simp at hcl
          omega)]
        rw [hcl]
        have hwlen : (writeAt output pos (d.take buf)).length = output.length :=
          length_writeAt_of_le (by rw [hcl]; omega)
        rw [ih (writeAt output pos (d.take buf)) (pos + min buf d.length) (d.drop buf) buf
          hbuf (by rw [List.length_drop]; omega) (by rw [hwlen, List.length_drop]; omega)]
        rw [show pos + min buf d.length = pos + (d.take buf).length by rw [hcl]]
        rw [writeAt_writeAt, List.take_append_drop]

theorem join_single_loop_eq (parts : Nat → Option ByteSeq) (C buf : Nat) (hbuf : 0 < buf) :
    ∀ (count i : Nat) (output : ByteSeq),
      (∀ k, i ≤ k → k < i + count →
        ∃ d, parts k = some d ∧ (k - 1) * C + d.length ≤ output.length) →
      join_single_loop parts C buf i count output =
        ⟨some (applyWrites (partWritesR parts C i count) output), none⟩ := by
  intro count
  induction count with
  | zero =>
      intro i output h
      simp [join_single_loop, partWritesR, applyWrites]
  | succ count ih =>
      intro i output h
      obtain ⟨d, hd, hbound⟩ := h i (Nat.le_refl i) (by omega)
      have hstep : join_single_loop parts C buf i (count + 1) output =
          join_single_loop parts C buf (i + 1) count
            (copy_loop output ((i - 1) * C) d buf (d.length + 1)) := by
        simp only [join_single_loop]
        rw [hd]
      rw [hstep, copy_loop_eq (d.length + 1) output ((i - 1) * C) d buf hbuf (by omega) hbound]
      rw [ih (i + 1) (writeAt output ((i - 1) * C) d) (by
        intro k hk1 hk2
        obtain ⟨d', hd', hb'⟩ := h k (by omega) (by omega)
        exact ⟨d', hd', by rw [length_writeAt_of_le hbound]; exact hb'⟩)]
      have hcons : partWritesR parts C i (count + 1) =
          ((i - 1) * C, (parts i).getD []) :: partWritesR parts C (i + 1) count := by
        unfold partWritesR
        rw [List.range'_succ, List.map_cons]
      rw [hcons, hd]
      rfl

theorem splitWrites_elem (content : ByteSeq) (C : Nat) (hC : 0 < C) (k : Nat)
    (h1 : 1 ≤ k) (h2 : k < 1 + (partsOf content C).length) :
    (k - 1) * C < content.length ∧
      ((partsOf content C)[k - 1]?).getD [] =
        (content.drop ((k - 1) * C)).take C ∧
      (((partsOf content C)[k - 1]?).getD []).length =
        min C (content.length - (k - 1) * C) := by
  have hlen : (partsOf content C).length = (content.length + C - 1) / C :=
    partsOf_length C hC content
  have hL : 0 < content.length := by
    by_contra hL
    have : content.length = 0 := by omega
    rw [this] at hlen
    rw [Nat.div_eq_of_lt (by omega : 0 + C - 1 < C)] at hlen
    omega
  have hb := ceil_div_bounds content.length C hC hL
  rw [← hlen] at hb
  have hkN : k - 1 ≤ (partsOf content C).length - 1 := by omega
  have hmul : (k - 1) * C ≤ ((partsOf content C).length - 1) * C :=
    Nat.mul_le_mul_right C hkN
  have hcm : C * ((partsOf content C).length - 1) =
      ((partsOf content C).length - 1) * C := Nat.mul_comm _ _
  have hlt : (k - 1) * C < content.length := by omega
  refine ⟨hlt, ?_, ?_⟩
  · rw [partsOf_getElem? C hC content (k - 1), if_pos hlt]
    rfl
  · rw [partsOf_getElem? C hC content (k - 1), if_pos hlt]
    simp [List.length_take, List.length_drop]

theorem splitWrites_inBounds (content : ByteSeq) (C : Nat) (hC : 0 < C) :
    InBounds (splitWrites content C) content.length := by
  intro w hw
  unfold splitWrites at hw
  rw [List.mem_map] at hw
  obtain ⟨k, hk, rfl⟩ := hw
  rw [List.mem_range'_1] at hk
  obtain ⟨hlt, heq, hsize⟩ := splitWrites_elem content C hC k hk.1 hk.2
  show (k - 1) * C + (((partsOf content C)[k - 1]?).getD []).length ≤ content.length
  rw [hsize]
  omega

theorem splitWrites_pairwise (content : ByteSeq) (C : Nat) (hC : 0 < C) :
    (splitWrites content C).Pairwise disjW := by
  unfold splitWrites
  rw [List.pairwise_map]
  have hp : (List.range' 1 (partsOf content C).length).Pairwise (· < ·) :=
    List.pairwise_lt_range' _ _
  refine hp.imp_of_mem ?_
  intro k k' hk hk' hlt
  rw [List.mem_range'_1] at hk hk'
  obtain ⟨_, _, hsize⟩ := splitWrites_elem content C hC k hk.1 hk.2
  left
  show (k - 1) * C + (((partsOf content C)[k - 1]?).getD []).length ≤ (k' - 1) * C
  rw [hsize]
  have h1 : k * C ≤ (k' - 1) * C := Nat.mul_le_mul_right C (by omega)
  have h2 : k * C = (k - 1) * C + C := by
    obtain ⟨m, rfl⟩ : ∃ m, k = m + 1 := ⟨k - 1, by omega⟩
    simp [Nat.succ_mul]
  omega

theorem splitWrites_covers (content : ByteSeq) (C : Nat) (hC : 0 < C)
    (hL : 0 < content.length) :
    CoversAll (splitWrites content C) content := by
  intro j hj
  have hlen : (partsOf content C).length = (content.length + C - 1) / C :=
    partsOf_length C hC content
  have hb := ceil_div_bounds content.length C hC hL
  rw [← hlen] at hb
  have hA : j / C * C + j % C = j := by
    have hdm := Nat.div_add_mod j C
    have hcm : C * (j / C) = j / C * C := Nat.mul_comm _ _
    omega
  have hmod : j % C < C := Nat.mod_lt j hC
  have hdivlt : j / C < (partsOf content C).length := by
    by_contra hge
    push_neg at hge
    have h1 : (partsOf content C).length * C ≤ j / C * C := Nat.mul_le_mul_right C hge
    have hcm : C * (partsOf content C).length = (partsOf content C).length * C :=
      Nat.mul_comm _ _
    have hchain : j < j :=
      calc j < content.length := hj
      _ ≤ C * (partsOf content C).length := hb.2
      _ = (partsOf content C).length * C := hcm
      _ ≤ j / C * C := h1
      _ ≤ j := Nat.div_mul_le_self j C
    omega
  obtain ⟨q, r, hq, hr⟩ : ∃ q r, q * C + r = j ∧ r < C ∧ q < (partsOf content C).length :=
    ⟨j / C, j % C, hA, hmod, hdivlt⟩
  obtain ⟨hr, hqlt⟩ := hr
  obtain ⟨hlt, heq, hsize⟩ :=
    splitWrites_elem content C hC (q + 1) (by omega) (by omega)
  simp only [Nat.add_sub_cancel] at hlt heq hsize
  refine ⟨((q + 1 - 1) * C, ((partsOf content C)[q + 1 - 1]?).getD []), ?_, ?_, ?_⟩
  · unfold splitWrites
    rw [List.mem_map]
    exact ⟨q + 1, List.mem_range'_1.mpr ⟨by omega, by omega⟩, rfl⟩
  · simp only [Nat.add_sub_cancel]
    constructor
    · show q * C ≤ j
      omega
    · show j < q * C + _
      rw [hsize]
      omega
  · simp only [Nat.add_sub_cancel]
    show (((partsOf content C)[q]?).getD [])[j - q * C]? = content[j]?
    rw [heq]
    rw [List.getElem?_take_of_lt (by omega), List.getElem?_drop]
    congr 1
    omega

/-! ## Parsing the manifest the splitter wrote -/
theorem isPrefixOf_append_self (l r : List Char) : l.isPrefixOf (l ++ r) = true := by
  simp [List.isPrefixOf_iff_prefix]

theorem key_not_leading {k1 k2 : List Char} (v : List Char) (j : Nat)
    (h1 : j < k1.length) (h2 : j < k2.length) (hne : k1[j]? ≠ k2[j]?) :
    k1.isPrefixOf (k2 ++ v) = false := by
  by_contra hp
  rw [Bool.not_eq_false, List.isPrefixOf_iff_prefix] at hp
  obtain ⟨t, ht⟩ := hp
  apply hne
  have e1 : (k1 ++ t)[j]? = k1[j]? := List.getElem?_append_left h1
  have e2 : (k2 ++ v)[j]? = k2[j]? := List.getElem?_append_left h2
  rw [← e1, ht, e2]

theorem pyStrip_toDigits (n : Nat) : pyStrip (Nat.toDigits 10 n) = Nat.toDigits 10 n := by
  rw [toDigits_eq_toDigitsSimple]
  exact pyStrip_eq_self_of_all (fun c hc => by
    obtain ⟨d, hd, rfl⟩ := mem_toDigitsSimple hc
    exact digitChar_not_space d hd)

theorem parse_line_name (st : InfoData) (v : List Char) :
    parse_info_line st (keyName ++ v) = .ok { st with original_name := some (pyStrip v) } := by
  unfold parse_info_line
  rw [isPrefixOf_append_self, if_pos rfl]
  unfold infoValue
  rw [List.drop_left]

theorem parse_line_parts (st : InfoData) (n : Nat) :
    parse_info_line st (keyParts ++ Nat.toDigits 10 n) =
      .ok { st with parts_count := (n : Int) } := by
  unfold parse_info_line
  rw [key_not_leading _ 0 (by decide) (by decide) (by decide),
    if_neg Bool.false_ne_true, isPrefixOf_append_self, if_pos rfl]
  unfold infoValue
  rw [List.drop_left, pyStrip_toDigits, parsePyInt_toDigits]

theorem parse_line_size (st : InfoData) (n : Nat) :
    parse_info_line st (keySize ++ Nat.toDigits 10 n) =
      .ok { st with original_size := (n : Int) } := by
  unfold parse_info_line
  rw [key_not_leading _ 9 (by decide) (by decide) (by decide),
    if_neg Bool.false_ne_true,
    key_not_leading _ 0 (by decide) (by decide) (by decide),
    if_neg Bool.false_ne_true, isPrefixOf_append_self, if_pos rfl]
  unfold infoValue
  rw [List.drop_left, pyStrip_toDigits, parsePyInt_toDigits]

theorem parse_line_chunk (st : InfoData) (n : Nat) :
    parse_info_line st (keyChunk ++ Nat.toDigits 10 n) =
      .ok { st with chunk_size := (n : Int) } := by
  unfold parse_info_line
  rw [key_not_leading _ 0 (by decide) (by decide) (by decide),
    if_neg Bool.false_ne_true,
    key_not_leading _ 0 (by decide) (by decide) (by decide),
    if_neg Bool.false_ne_true,
    key_not_leading _ 0 (by decide) (by decide) (by decide),
    if_neg Bool.false_ne_true, isPrefixOf_append_self, if_pos rfl]
  unfold infoValue
  rw [List.drop_left, pyStrip_toDigits, parsePyInt_toDigits]

theorem parse_info_step {st st' : InfoData} {line : List Char} {lines : List (List Char)}
    (h : parse_info_line st line = .ok st') :
    List.foldlM parse_info_line st (line :: lines) =
      List.foldlM parse_info_line st' lines := by
  rw [List.foldlM_cons, h]
  rfl

/-- Parsing back the manifest the splitter wrote (without a hash line)
recovers exactly the recorded values. -/
theorem parse_manifest_lines (m : Manifest) (hhash : m.original_hash = none) :
    parse_info (manifest_lines m) =
      .ok { original_name := some (pyStrip m.original_name),
            parts_count := (m.parts_count : Int),
            original_size := (m.original_size : Int),
            chunk_size := (m.chunk_size : Int),
            original_hash := none } := by
  unfold manifest_lines
  rw [hhash]
  show parse_info [keyName ++ m.original_name,
    keyParts ++ Nat.toDigits 10 m.parts_count,
    keySize ++ Nat.toDigits 10 m.original_size,
    keyChunk ++ Nat.toDigits 10 m.chunk_size] = _
  unfold parse_info
  rw [parse_info_step (parse_line_name _ _),
    parse_info_step (parse_line_parts _ _),
    parse_info_step (parse_line_size _ _),
    parse_info_step (parse_line_chunk _ _)]
  rfl

/-! ## Round trip: the split directory joins back to the original bytes -/
theorem partsOf_length_pos (content : ByteSeq) (C : Nat) (hC : 0 < C)
    (hL : 0 < content.length) : 0 < (partsOf content C).length := by
  rw [partsOf_length C hC content]
  show 1 ≤ (content.length + C - 1) / C
  rw [Nat.le_div_iff_mul_le hC]
  omega

theorem dir_parts_of_split (content : ByteSeq) (base_name : List Char) (C : Nat) (k : Nat)
    (hk : 1 ≤ k) (r : SplitResult) (hr : r.parts = partsOf content C) :
    (dirOfSplit r).parts k = (partsOf content C)[k - 1]? := by
  unfold dirOfSplit
  show (if k = 0 then none else r.parts[k - 1]?) = (partsOf content C)[k - 1]?
  rw [if_neg (by omega), hr]

theorem infoInvalid_false (name : List Char) (pc S C : Nat)
    (hname : name ≠ []) (hpc : 0 < pc) (hash : Option (List Char)) :
    infoInvalid
      { original_name := some name, parts_count := (pc : Int),
        original_size := (S : Int), chunk_size := (C : Int),
        original_hash := hash } = false := by
  unfold infoInvalid
  rw [Bool.or_eq_false_iff]
  constructor
  · show name.isEmpty = false
    cases name with
    | nil => exact absurd rfl hname
    | cons c cs => rfl
  · rw [beq_eq_false_iff_ne]
    intro h
    rw [show ((0 : Int) = ((0 : Nat) : Int)) from rfl] at h
    have := Int.ofNat.inj h
    omega

/-- The single-threaded join of a split directory reproduces the file. -/
theorem join_single_of_split (content : ByteSeq) (base_name : List Char)
    (C bufS bufJ : Nat) (r : SplitResult)
    (hne : content ≠ []) (hC : 0 < C) (hbufS : 0 < bufS) (hbufJ : 0 < bufJ)
    (hname : pyStrip base_name ≠ [])
    (hsplit : split_file content base_name C false bufS = some r) :
    join_files_single_streaming (dirOfSplit r) bufJ = ⟨some content, none⟩ := by
  rw [split_file_eq content base_name C bufS hne hC hbufS] at hsplit
  cases hsplit
  have hL : 0 < content.length := List.length_pos.mpr hne
  have hN : 0 < (partsOf content C).length := partsOf_length_pos content C hC hL
  unfold join_files_single_streaming
  show (match parse_info (manifest_lines _) with
    | .error _ => (⟨none, some .valueError⟩ : JoinResult)
    | .ok info =>
      if infoInvalid info then ⟨none, some .formatError⟩
      else
        join_single_loop (dirOfSplit _).parts info.chunk_size.toNat bufJ 1
          info.parts_count.toNat
          (List.replicate info.original_size.toNat 0)) = _
  rw [parse_manifest_lines _ rfl]
  show (if infoInvalid _ = true then (⟨none, some .formatError⟩ : JoinResult) else _) = _
  rw [infoInvalid_false _ _ _ _ hname hN none, if_neg Bool.false_ne_true]
  simp only [Int.toNat_ofNat]
  rw [join_single_loop_eq _ C bufJ hbufJ (partsOf content C).length 1
    (List.replicate content.length 0) (by
      intro k hk1 hk2
      rw [dir_parts_of_split content base_name C k hk1 _ rfl]
      obtain ⟨hlt, heq, hsize⟩ := splitWrites_elem content C hC k hk1 hk2
      refine ⟨(content.drop ((k - 1) * C)).take C, ?_, ?_⟩
      · rw [partsOf_getElem? C hC content (k - 1), if_pos hlt]
      · rw [List.length_replicate]
        simp only [List.length_take, List.length_drop]
        omega)]
  have hmap : partWritesR (dirOfSplit
      { parts := partsOf content C,
        manifest := { original_name := base_name,
                      parts_count := (partsOf content C).length,
                      original_size := content.length,
                      chunk_size := C,
                      original_hash := none } }).parts C 1 (partsOf content C).length =
      splitWrites content C := by
    unfold partWritesR splitWrites
    apply List.map_congr_left
    intro k hk
    rw [List.mem_range'_1] at hk
    rw [dir_parts_of_split content base_name C k hk.1 _ rfl]
  rw [hmap]
  rw [applyWrites_reconstructs (splitWrites_inBounds content C hC)
    (splitWrites_pairwise content C hC) (splitWrites_covers content C hC hL)]

/-! ## What the part readers put on the channel -/
theorem cCOMPLETED_ne_nil : cCOMPLETED ≠ [] := by decide

theorem isTruthy_cCOMPLETED : isTruthy (some cCOMPLETED) = true := by decide

theorem dataWrites_nil : dataWrites [] = [] := rfl

theorem dataWrites_cons_data (pn : Nat) (p : Nat) (c : ByteSeq) (es : List RawMsg) :
    dataWrites (⟨pn, some p, some c, none⟩ :: es) = (p, c) :: dataWrites es := rfl

theorem dataWrites_cons_truthy {m : RawMsg} (h : isTruthy m.error = true)
    (es : List RawMsg) : dataWrites (m :: es) = dataWrites es := by
  unfold dataWrites
  rw [List.filterMap_cons]
  rw [if_pos h]

/-- Every positioned write a reader's loop emits lies inside the part's
byte range and carries the part's own bytes at the right offsets. -/
theorem read_part_loop_writes (d : ByteSeq) (pnum pos buf : Nat) (hbuf : 0 < buf) :
    ∀ (fuel br : Nat),
      (∀ w ∈ dataWrites (read_part_loop d pnum d.length pos buf br fuel),
        pos + br ≤ w.1 ∧ w.1 + w.2.length ≤ pos + d.length ∧
        ∀ j, w.1 ≤ j → j < w.1 + w.2.length → w.2[j - w.1]? = d[j - pos]?) ∧
      (dataWrites (read_part_loop d pnum d.length pos buf br fuel)).Pairwise disjW := by
  intro fuel
  induction fuel with
  | zero =>
      intro br
      constructor
      · intro w hw
        simp [read_part_loop, dataWrites] at hw
      · simp [read_part_loop, dataWrites]
  | succ fuel ih =>
      intro br
      by_cases hbr : d.length ≤ br
      · constructor
        · intro w hw
          simp [read_part_loop, if_pos hbr, dataWrites] at hw
        · simp [read_part_loop, if_pos hbr, dataWrites]
      · push_neg at hbr
        have hchunklen : ((d.drop br).take (min buf (d.length - br))).length =
            min buf (d.length - br) := by
          simp only [List.length_take, List.length_drop]
          omega
        have hchunkpos : 0 < min buf (d.length - br) := by
          simp only [Nat.lt_min]
          omega
        have hne : (d.drop br).take (min buf (d.length - br)) ≠ [] := by
          intro hnil
          rw [hnil] at hchunklen
          simp at hchunklen
          omega
        have hstep : read_part_loop d pnum d.length pos buf br (fuel + 1) =
            ⟨pnum, some (pos + br), some ((d.drop br).take (min buf (d.length - br))),
              none⟩ ::
            read_part_loop d pnum d.length pos buf
              (br + ((d.drop br).take (min buf (d.length - br))).length) fuel := by
          simp only [read_part_loop]
          rw [if_neg (by omega), if_neg hne]
        rw [hstep, dataWrites_cons_data]
        obtain ⟨ihmem, ihpair⟩ := ih (br + ((d.drop br).take (min buf (d.length - br))).length)
        constructor
        · intro w hw
          rcases List.mem_cons.mp hw with rfl | hmem
          · refine ⟨by omega, by rw [hchunklen]; simp; omega, ?_⟩
            intro j hj1 hj2
            rw [hchunklen] at hj2
            rw [List.getElem?_take_of_lt (by omega), List.getElem?_drop]
            congr 1
            omega
          · obtain ⟨hlo, hhi, hbytes⟩ := ihmem w hmem
            rw [hchunklen] at hlo
            exact ⟨by omega, hhi, hbytes⟩
        · rw [List.pairwise_cons]
          refine ⟨?_, ihpair⟩
          intro w hmem
          obtain ⟨hlo, _, _⟩ := ihmem w hmem
          left
          show pos + br + ((d.drop br).take (min buf (d.length - br))).length ≤ w.1
          omega

/-- Every byte of the part is carried by some write of the reader's loop. -/
theorem read_part_loop_covers (d : ByteSeq) (pnum pos buf : Nat) (hbuf : 0 < buf) :
    ∀ (fuel br : Nat), d.length - br < fuel →
      ∀ j, br ≤ j → j < d.length →
        ∃ w ∈ dataWrites (read_part_loop d pnum d.length pos buf br fuel),
          covers w (pos + j) ∧ w.2[pos + j - w.1]? = d[j]? := by
  intro fuel
  induction fuel with
  | zero => intro br hfuel j hj1 hj2; omega
  | succ fuel ih =>
      intro br hfuel j hj1 hj2
      have hbr : br < d.length := by omega
      have hchunklen : ((d.drop br).take (min buf (d.length - br))).length =
          min buf (d.length - br) := by
        simp only [List.length_take, List.length_drop]
        omega
      have hchunkpos : 0 < min buf (d.length - br) := by
        simp only [Nat.lt_min]
        omega
      have hne : (d.drop br).take (min buf (d.length - br)) ≠ [] := by
        intro hnil
        rw [hnil] at hchunklen
        simp at hchunklen
        omega
      have hstep : read_part_loop d pnum d.length pos buf br (fuel + 1) =
          ⟨pnum, some (pos + br), some ((d.drop br).take (min buf (d.length - br))),
            none⟩ ::
          read_part_loop d pnum d.length pos buf
            (br + ((d.drop br).take (min buf (d.length - br))).length) fuel := by
        simp only [read_part_loop]
        rw [if_neg (by omega), if_neg hne]
      rw [hstep, dataWrites_cons_data]
      by_cases hcase : j < br + min buf (d.length - br)
      · refine ⟨(pos + br, (d.drop br).take (min buf (d.length - br))),
          List.mem_cons_self _ _, ⟨by omega, by rw [hchunklen]; omega⟩, ?_⟩
        rw [List.getElem?_take_of_lt (by omega), List.getElem?_drop]
        congr 1
        omega
      · push_neg at hcase
        obtain ⟨w, hw, hcov, hbyte⟩ :=
          ih (br + ((d.drop br).take (min buf (d.length - br))).length)
            (by rw [hchunklen]; omega) j (by rw [hchunklen]; omega) hj2
        exact ⟨w, List.mem_cons_of_mem _ hw, hcov, hbyte⟩

/-- Messages emitted by the reader's loop are data messages: their `error`
field is `None`. -/
theorem read_part_loop_error_none (d : ByteSeq) (pnum psize pos buf : Nat) :
    ∀ (fuel br : Nat), ∀ m ∈ read_part_loop d pnum psize pos buf br fuel,
      m.error = none := by
  intro fuel
  induction fuel with
  | zero => intro br m hm; simp [read_part_loop] at hm
  | succ fuel ih =>
      intro br m hm
      simp only [read_part_loop] at hm
      by_cases h1 : psize ≤ br
      · rw [if_pos h1] at hm; simp at hm
      · rw [if_neg h1] at hm
        by_cases h2 : (d.drop br).take (min buf (psize - br)) = []
        · rw [if_pos h2] at hm; simp at hm
        · rw [if_neg h2] at hm
          rcases List.mem_cons.mp hm with rfl | hmem
          · rfl
          · exact ih _ m hmem

/-! ## Interleavings and the writer's drain -/
theorem eq_take_cons_drop {α : Type} :
    ∀ {l : List α} {i : Nat} {a : α}, l[i]? = some a →
      l = l.take i ++ a :: l.drop (i + 1) := by
  intro l
  induction l with
  | nil => intro i a h; simp at h
  | cons x xs ih =>
      intro i a h
      cases i with
      | zero =>
          simp at h
          subst h
          simp
      | succ i =>
          rw [List.getElem?_cons_succ] at h
          show x :: xs = x :: (xs.take i ++ a :: xs.drop (i + 1))
          rw [← ih h]

theorem set_eq_take_cons_drop {α : Type} :
    ∀ {l : List α} {i : Nat} {a : α}, l[i]? = some a → ∀ (b : α),
      l.set i b = l.take i ++ b :: l.drop (i + 1) := by
  intro l
  induction l with
  | nil => intro i a h; simp at h
  | cons x xs ih =>
      intro i a h b
      cases i with
      | zero => simp
      | succ i =>
          rw [List.getElem?_cons_succ] at h
          show x :: xs.set i b = x :: (xs.take i ++ b :: xs.drop (i + 1))
          rw [ih h]

/-- Delivering an interleaving of the queues delivers exactly the queues'
messages, in some order. -/
theorem interleave_perm {α : Type} :
    ∀ {qs : List (List α)} {es : List α}, Interleave qs es → es.Perm qs.flatten := by
  intro qs es h
  induction h with
  | done qs hqs =>
      rw [List.flatten_eq_nil_iff.mpr hqs]
  | step qs i x q out hget hint ih =>
      have hqs : qs = qs.take i ++ (x :: q) :: qs.drop (i + 1) := eq_take_cons_drop hget
      have hset : qs.set i q = qs.take i ++ q :: qs.drop (i + 1) :=
        set_eq_take_cons_drop hget q
      rw [hset] at ih
      rw [List.flatten_append, List.flatten_cons] at ih
      conv_rhs => rw [hqs]
      rw [List.flatten_append, List.flatten_cons]
      refine (ih.cons x).trans ?_
      exact List.perm_middle.symm

theorem countP_set {α : Type} (p : α → Bool) :
    ∀ (l : List α) (i : Nat) (a b : α), l[i]? = some a →
      (l.set i b).countP p =
        l.countP p - (if p a then 1 else 0) + (if p b then 1 else 0) := by
  intro l
  induction l with
  | nil => intro i a b h; simp at h
  | cons x xs ih =>
      intro i a b h
      cases i with
      | zero =>
          rw [List.getElem?_cons_zero] at h
          injection h with hxa
          subst hxa
          show (b :: xs).countP p =
            (x :: xs).countP p - (if p x then 1 else 0) + (if p b then 1 else 0)
          rw [List.countP_cons, List.countP_cons]
          by_cases hp : p x <;> by_cases hq : p b <;> simp [hp, hq] <;> omega
      | succ i =>
          rw [List.getElem?_cons_succ] at h
          show (x :: xs.set i b).countP p = _
          rw [List.countP_cons, List.countP_cons, ih i a b h]
          have hc : (if p a then 1 else 0) ≤ xs.countP p := by
            by_cases hp : p a
            · have hpos : 0 < xs.countP p :=
                List.countP_pos_iff.mpr ⟨a, List.getElem?_mem h, hp⟩
              rw [if_pos hp]
              omega
            · rw [if_neg hp]
              omega
          omega

theorem writer_done_eq (total : Nat) (es : List (Option RawMsg)) (st : WriterSt)
    (h : total ≤ st.completed_parts) :
    write_part_worker_streaming total es st = (st, .drained) := by
  rw [write_part_worker_streaming.eq_def]
  dsimp only
  rw [if_pos h]

theorem writer_step_eq (total : Nat) (m : RawMsg) (es : List (Option RawMsg))
    (st : WriterSt) (h : st.completed_parts < total) :
    write_part_worker_streaming total (some m :: es) st =
      write_part_worker_streaming total es (write_step st m) := by
  conv_lhs => rw [write_part_worker_streaming.eq_def]
  dsimp only
  rw [if_neg (by omega)]

theorem writer_starved_eq (total : Nat) (st : WriterSt)
    (h : st.completed_parts < total) :
    write_part_worker_streaming total [] st = (st, .starved) := by
  rw [write_part_worker_streaming.eq_def]
  dsimp only
  rw [if_neg (by omega)]

theorem writer_timeout_eq (total : Nat) (es : List (Option RawMsg)) (st : WriterSt)
    (h : st.completed_parts < total) :
    write_part_worker_streaming total (none :: es) st = (st, .timedOut) := by
  rw [write_part_worker_streaming.eq_def]
  dsimp only
  rw [if_neg (by omega)]

theorem write_step_data {st : WriterSt} {m : RawMsg} (h : m.error = none) :
    write_step st m =
      { st with file := writeAt st.file (m.position.getD 0) (m.data.getD []) } := by
  unfold write_step
  rw [h]
  rfl

theorem write_step_completed {st : WriterSt} {m : RawMsg}
    (h : m.error = some cCOMPLETED) :
    write_step st m = { st with completed_parts := st.completed_parts + 1 } := by
  unfold write_step
  rw [if_pos h]

/-- Drain of a full interleaving of well-shaped reader queues: the writer
terminates exactly when the per-queue COMPLETED messages account for every
queue, having performed all the data writes (in arrival order). -/
theorem run_writer_interleave :
    ∀ {qs : List (List RawMsg)} {es : List RawMsg}, Interleave qs es →
      ∀ (st : WriterSt) (total : Nat),
        (∀ q ∈ qs, q = [] ∨ ShapeQ q) →
        total = st.completed_parts + qs.countP (fun q => !q.isEmpty) →
        write_part_worker_streaming total (es.map some) st =
          ({ completed_parts := total, file := applyWrites (dataWrites es) st.file },
            .drained) := by
  intro qs es h
  induction h with
  | done qs hqs =>
      intro st total hshape htotal
      have hcount : qs.countP (fun q => !q.isEmpty) = 0 := by
        rw [List.countP_eq_zero]
        intro q hq
        rw [hqs q hq]
        simp
      rw [hcount] at htotal
      show write_part_worker_streaming total [] st = _
      rw [writer_done_eq total [] st (by omega)]
      rw [show dataWrites [] = [] from rfl]
      show (st, WStatus.drained) = ({ completed_parts := total, file := st.file }, _)
      rw [htotal]
      rfl
  | step qs i x q out hget hint ih =>
      intro st total hshape htotal
      have hmem : (x :: q) ∈ qs := List.getElem?_mem hget
      have hShape : ShapeQ (x :: q) := by
        rcases hshape _ hmem with h' | h'
        · simp at h'
        · exact h'
      have hpos : 0 < qs.countP (fun q => !q.isEmpty) :=
        List.countP_pos_iff.mpr ⟨x :: q, hmem, rfl⟩
      have hlt : st.completed_parts < total := by omega
      show write_part_worker_streaming total (some x :: out.map some) st = _
      rw [writer_step_eq total x (out.map some) st hlt]
      obtain ⟨ds, pn, hq, hds⟩ := hShape
      cases q with
      | nil =>
          have hx : x = ⟨pn, none, none, some cCOMPLETED⟩ := by
            cases ds with
            | nil => simpa using hq
            | cons y ys =>
                rw [List.cons_append] at hq
                injection hq with h1 h2
                exfalso
                cases ys <;> simp at h2
          have hcnt := countP_set (fun q => !q.isEmpty) qs i (x :: []) [] hget
          rw [ih (write_step st x) total (by
              intro q' hq'
              rcases List.mem_or_eq_of_mem_set hq' with h' | h'
              · exact hshape q' h'
              · exact Or.inl h') (by
              rw [write_step_completed (by rw [hx]), hcnt]
              show total = st.completed_parts + 1 +
                (qs.countP (fun q => !q.isEmpty) - 1 + 0)
              omega)]
          rw [write_step_completed (by rw [hx])]
          have hdw : dataWrites (x :: out) = dataWrites out := by
            apply dataWrites_cons_truthy
            rw [hx]
            exact isTruthy_cCOMPLETED
          rw [hdw]
      | cons y ys =>
          have hxds : x ∈ ds := by
            cases ds with
            | nil =>
                exfalso
                rw [List.nil_append] at hq
                injection hq with h1 h2
                cases ys <;> simp at h2
            | cons z zs =>
                rw [List.cons_append] at hq
                injection hq with h1 h2
                rw [h1]
                exact List.mem_cons_self _ _
          have hxerr : x.error = none := hds x hxds
          have hcnt := countP_set (fun q => !q.isEmpty) qs i (x :: y :: ys) (y :: ys) hget
          rw [ih (write_step st x) total (by
              intro q' hq'
              rcases List.mem_or_eq_of_mem_set hq' with h' | h'
              · exact hshape q' h'
              · right
                rw [h']
                refine ⟨ds.tail, pn, ?_, fun m hm => hds m (List.mem_of_mem_tail hm)⟩
                cases ds with
                | nil =>
                    exfalso
                    rw [List.nil_append] at hq
                    injection hq with h1 h2
                    cases ys <;> simp at h2
                | cons z zs =>
                    rw [List.cons_append] at hq
                    injection hq) (by
              rw [write_step_data hxerr, hcnt]
              show total = st.completed_parts +
                (qs.countP (fun q => !q.isEmpty) - 1 + 1)
              omega)]
          rw [write_step_data hxerr]
          have hdw : dataWrites (x :: out) =
              (x.position.getD 0, x.data.getD []) :: dataWrites out := by
            unfold dataWrites
            rw [List.filterMap_cons]
            rw [if_neg (by rw [hxerr]; simp [isTruthy])]
          rw [hdw]
          rfl

/-! ## The concurrent join on a split directory -/
theorem check_parts_none (parts : Nat → Option ByteSeq) :
    ∀ (count i : Nat), (∀ k, i ≤ k → k < i + count → (parts k).isSome) →
      check_parts parts i count = none := by
  intro count
  induction count with
  | zero => intro i h; rfl
  | succ count ih =>
      intro i h
      show (match parts i with
        | none => some i
        | some _ => check_parts parts (i + 1) count) = none
      have hi := h i (Nat.le_refl i) (by omega)
      cases hp : parts i with
      | none => rw [hp] at hi; simp at hi
      | some d => exact ih (i + 1) (fun k h1 h2 => h k (by omega) (by omega))

theorem dataWrites_append (l1 l2 : List RawMsg) :
    dataWrites (l1 ++ l2) = dataWrites l1 ++ dataWrites l2 := by
  unfold dataWrites
  rw [List.filterMap_append]

theorem dataWrites_flatten (L : List (List RawMsg)) :
    dataWrites L.flatten = (L.map dataWrites).flatten := by
  unfold dataWrites
  rw [List.filterMap_flatten]

/-- The reader's full message list for a present part contributes exactly
its loop's data writes. -/
theorem dataWrites_worker (pnum : Nat) (d : ByteSeq) (pos psize buf : Nat) :
    dataWrites (read_part_worker_streaming pnum (some d) pos psize buf) =
      dataWrites (read_part_loop d pnum psize pos buf 0 (psize + 1)) := by
  show dataWrites (read_part_loop d pnum psize pos buf 0 (psize + 1) ++
    [⟨pnum, none, none, some cCOMPLETED⟩]) = _
  rw [dataWrites_append]
  rw [dataWrites_cons_truthy isTruthy_cCOMPLETED, dataWrites_nil, List.append_nil]

/-- The flattened data-write set of all readers over a split directory:
in bounds, pairwise disjoint, and covering every byte of the content. -/
theorem multi_writes_facts (content : ByteSeq) (C buf : Nat) (hC : 0 < C)
    (hbuf : 0 < buf) (hL : 0 < content.length)
    (parts : Nat → Option ByteSeq)
    (hpart : ∀ k, 1 ≤ k → k < 1 + (partsOf content C).length →
      parts k = some ((content.drop ((k - 1) * C)).take C)) :
    InBounds (((reader_queues parts (partsOf content C).length C buf).map
        dataWrites).flatten) content.length ∧
    (((reader_queues parts (partsOf content C).length C buf).map
        dataWrites).flatten).Pairwise disjW ∧
    CoversAll (((reader_queues parts (partsOf content C).length C buf).map
        dataWrites).flatten) content := by
  have hqueue : ∀ k, 1 ≤ k → k < 1 + (partsOf content C).length →
      dataWrites (read_part_worker_streaming k (parts k) ((k - 1) * C)
          (((parts k).getD []).length) buf) =
        dataWrites (read_part_loop ((content.drop ((k - 1) * C)).take C) k
          ((content.drop ((k - 1) * C)).take C).length ((k - 1) * C) buf 0
          (((content.drop ((k - 1) * C)).take C).length + 1)) := by
    intro k h1 h2
    rw [hpart k h1 h2]
    exact dataWrites_worker k _ _ _ buf
  have helem : ∀ k, 1 ≤ k → k < 1 + (partsOf content C).length →
      (k - 1) * C < content.length ∧
      (k - 1) * C + ((content.drop ((k - 1) * C)).take C).length ≤ content.length ∧
      ((content.drop ((k - 1) * C)).take C).length =
        min C (content.length - (k - 1) * C) := by
    intro k h1 h2
    obtain ⟨hlt, heq, hsize⟩ := splitWrites_elem content C hC k h1 h2
    refine ⟨hlt, ?_, ?_⟩ <;> simp only [List.length_take, List.length_drop] <;> omega
  refine ⟨?_, ?_, ?_⟩
  · -- in bounds
    intro w hw
    rw [List.mem_flatten] at hw
    obtain ⟨l, hl, hwl⟩ := hw
    rw [List.mem_map] at hl
    obtain ⟨qmsg, hq, rfl⟩ := hl
    unfold reader_queues at hq
    rw [List.mem_map] at hq
    obtain ⟨k, hk, rfl⟩ := hq
    rw [List.mem_range'_1] at hk
    rw [hqueue k hk.1 hk.2] at hwl
    obtain ⟨_, hhi, _⟩ := (read_part_loop_writes _ k ((k - 1) * C) buf hbuf _ 0).1 w hwl
    obtain ⟨_, hbound, _⟩ := helem k hk.1 hk.2
    omega
  · -- pairwise disjoint
    rw [List.pairwise_flatten]
    constructor
    · intro l hl
      rw [List.mem_map] at hl
      obtain ⟨qmsg, hq, rfl⟩ := hl
      unfold reader_queues at hq
      rw [List.mem_map] at hq
      obtain ⟨k, hk, rfl⟩ := hq
      rw [List.mem_range'_1] at hk
      rw [hqueue k hk.1 hk.2]
      exact (read_part_loop_writes _ k ((k - 1) * C) buf hbuf _ 0).2
    · unfold reader_queues
      rw [List.map_map, List.pairwise_map]
      have hp : (List.range' 1 (partsOf content C).length).Pairwise (· < ·) :=
        List.pairwise_lt_range' _ _
      refine hp.imp_of_mem ?_
      intro k k' hk hk' hlt w hw w' hw'
      rw [List.mem_range'_1] at hk hk'
      simp only [Function.comp] at hw hw'
      rw [hqueue k hk.1 hk.2] at hw
      rw [hqueue k' hk'.1 hk'.2] at hw'
      obtain ⟨_, hhi, _⟩ := (read_part_loop_writes _ k ((k - 1) * C) buf hbuf _ 0).1 w hw
      obtain ⟨hlo', _, _⟩ := (read_part_loop_writes _ k' ((k' - 1) * C) buf hbuf _ 0).1 w' hw'
      obtain ⟨_, _, hsize⟩ := helem k hk.1 hk.2
      left
      have hkk : k * C ≤ (k' - 1) * C := Nat.mul_le_mul_right C (by omega)
      have hk1 : k * C = (k - 1) * C + C := by
        obtain ⟨m, rfl⟩ : ∃ m, k = m + 1 := ⟨k - 1, by omega⟩
        simp [Nat.succ_mul]
      omega
  · -- covers
    intro j hj
    have hlen : (partsOf content C).length = (content.length + C - 1) / C :=
      partsOf_length C hC content
    have hb := ceil_div_bounds content.length C hC hL
    rw [← hlen] at hb
    have hA : j / C * C + j % C = j := by
      have hdm := Nat.div_add_mod j C
      have hcm : C * (j / C) = j / C * C := Nat.mul_comm _ _
      omega
    have hmod : j % C < C := Nat.mod_lt j hC
    have hdivlt : j / C < (partsOf content C).length := by
      by_contra hge
      push_neg at hge
      have h1 : (partsOf content C).length * C ≤ j / C * C := Nat.mul_le_mul_right C hge
      have hcm : C * (partsOf content C).length = (partsOf content C).length * C :=
        Nat.mul_comm _ _
      have hchain : j < j :=
        calc j < content.length := hj
        _ ≤ C * (partsOf content C).length := hb.2
        _ = (partsOf content C).length * C := hcm
        _ ≤ j / C * C := h1
        _ ≤ j := Nat.div_mul_le_self j C
      omega
    obtain ⟨q, r, hqr, hr, hqlt⟩ :
        ∃ q r, q * C + r = j ∧ r < C ∧ q < (partsOf content C).length :=
      ⟨j / C, j % C, hA, hmod, hdivlt⟩
    obtain ⟨hlt, hbound, hsize⟩ := helem (q + 1) (by omega) (by omega)
    simp only [Nat.add_sub_cancel] at hlt hbound hsize
    -- the local byte index within part q+1
    have hjloc : j - q * C < ((content.drop (q * C)).take C).length := by
      rw [hsize]
      omega
    obtain ⟨w, hw, hcov, hbyte⟩ :=
      read_part_loop_covers ((content.drop (q * C)).take C) (q + 1) (q * C) buf hbuf
        (((content.drop (q * C)).take C).length + 1) 0 (by omega) (j - q * C)
        (by omega) hjloc
    refine ⟨w, ?_, ?_, ?_⟩
    · rw [List.mem_flatten]
      refine ⟨dataWrites (read_part_worker_streaming (q + 1) (parts (q + 1)) (q * C)
        (((parts (q + 1)).getD []).length) buf), ?_, ?_⟩
      · rw [List.mem_map]
        refine ⟨read_part_worker_streaming (q + 1) (parts (q + 1)) (q * C)
          (((parts (q + 1)).getD []).length) buf, ?_, rfl⟩
        unfold reader_queues
        rw [List.mem_map]
        exact ⟨q + 1, List.mem_range'_1.mpr ⟨by omega, by omega⟩, rfl⟩
      · rw [hpart (q + 1) (by omega) (by omega), dataWrites_worker]
        simp only [Nat.add_sub_cancel]
        exact hw
    · have : q * C + (j - q * C) = j := by omega
      rw [this] at hcov
      exact hcov
    · have heq : q * C + (j - q * C) = j := by omega
      rw [heq] at hbyte
      rw [hbyte]
      rw [List.getElem?_take_of_lt (by rw [hsize] at hjloc; omega), List.getElem?_drop]
      congr 1

theorem applyWrites_reconstructs_perm {ws ws' : List (Nat × ByteSeq)} {content : ByteSeq}
    (hperm : ws'.Perm ws)
    (hb : InBounds ws content.length) (hp : ws.Pairwise disjW)
    (hc : CoversAll ws content) :
    applyWrites ws' (List.replicate content.length 0) = content := by
  apply applyWrites_reconstructs
  · intro w hw
    exact hb w (hperm.mem_iff.mp hw)
  · exact (List.Perm.pairwise_iff (fun h => disjW_symm h) hperm).mpr hp
  · intro j hj
    obtain ⟨w, hw, hcov, hbyte⟩ := hc j hj
    exact ⟨w, hperm.mem_iff.mpr hw, hcov, hbyte⟩

/-- The concurrent join of a split directory reproduces the file whatever
arrival order the channel delivers. -/
theorem join_multi_of_split (content : ByteSeq) (base_name : List Char)
    (C bufS bufJ : Nat) (r : SplitResult)
    (hne : content ≠ []) (hC : 0 < C) (hbufS : 0 < bufS) (hbufJ : 0 < bufJ)
    (hname : pyStrip base_name ≠ [])
    (hsplit : split_file content base_name C false bufS = some r)
    (events : List RawMsg)
    (hint : Interleave
      (reader_queues (dirOfSplit r).parts r.manifest.parts_count
        r.manifest.chunk_size bufJ) events) :
    join_files_multithreaded_streaming (dirOfSplit r) bufJ events =
      ⟨some content, none⟩ := by
  rw [split_file_eq content base_name C bufS hne hC hbufS] at hsplit
  cases hsplit
  have hL : 0 < content.length := List.length_pos.mpr hne
  have hN : 0 < (partsOf content C).length := partsOf_length_pos content C hC hL
  have hpart : ∀ k, 1 ≤ k → k < 1 + (partsOf content C).length →
      (dirOfSplit
        { parts := partsOf content C,
          manifest := { original_name := base_name,
                        parts_count := (partsOf content C).length,
                        original_size := content.length,
                        chunk_size := C,
                        original_hash := none } }).parts k =
        some ((content.drop ((k - 1) * C)).take C) := by
    intro k h1 h2
    rw [dir_parts_of_split content base_name C k h1 _ rfl]
    rw [partsOf_getElem? C hC content (k - 1),
      if_pos (splitWrites_elem content C hC k h1 h2).1]
  unfold join_files_multithreaded_streaming
  show (match parse_info (manifest_lines _) with
    | .error _ => (⟨none, some .valueError⟩ : JoinResult)
    | .ok info =>
      if infoInvalid info then ⟨none, some .formatError⟩
      else
        match check_parts (dirOfSplit _).parts 1 info.parts_count.toNat with
        | some i => ⟨some (List.replicate info.original_size.toNat 0),
            some (.missingPart i)⟩
        | none =>
          ⟨some (write_part_worker_streaming info.parts_count.toNat (events.map some)
            ⟨0, List.replicate info.original_size.toNat 0⟩).1.file, none⟩) = _
  rw [parse_manifest_lines _ rfl]
  show (if infoInvalid _ = true then (⟨none, some .formatError⟩ : JoinResult) else _) = _
  rw [infoInvalid_false _ _ _ _ hname hN none, if_neg Bool.false_ne_true]
  simp only [Int.toNat_ofNat]
  rw [check_parts_none _ (partsOf content C).length 1 (by
    intro k h1 h2
    rw [hpart k h1 (by omega)]
    rfl)]
  show (⟨some (write_part_worker_streaming (partsOf content C).length (events.map some)
    ⟨0, List.replicate content.length 0⟩).1.file, none⟩ : JoinResult) = _
  have hshape : ∀ q ∈ reader_queues
      (dirOfSplit
            { parts := partsOf content C,
              manifest := { original_name := base_name,
                            parts_count := (partsOf content C).length,
                            original_size := content.length,
                            chunk_size := C,
                            original_hash := none } }).parts
      (partsOf content C).length C bufJ, ShapeQ q := by
    intro q hq
    unfold reader_queues at hq
    rw [List.mem_map] at hq
    obtain ⟨k, hk, rfl⟩ := hq
    rw [List.mem_range'_1] at hk
    rw [hpart k hk.1 hk.2]
    refine ⟨read_part_loop ((content.drop ((k - 1) * C)).take C) k
      (((content.drop ((k - 1) * C)).take C)).length ((k - 1) * C) bufJ 0
      ((((content.drop ((k - 1) * C)).take C)).length + 1), k, rfl, ?_⟩
    intro m hm
    exact read_part_loop_error_none _ k _ _ bufJ _ 0 m hm
  have hcount : (reader_queues
      (dirOfSplit
            { parts := partsOf content C,
              manifest := { original_name := base_name,
                            parts_count := (partsOf content C).length,
                            original_size := content.length,
                            chunk_size := C,
                            original_hash := none } }).parts
      (partsOf content C).length C bufJ).countP (fun q => !q.isEmpty) =
      (partsOf content C).length := by
    have hlen : (reader_queues
        (dirOfSplit
            { parts := partsOf content C,
              manifest := { original_name := base_name,
                            parts_count := (partsOf content C).length,
                            original_size := content.length,
                            chunk_size := C,
                            original_hash := none } }).parts
        (partsOf content C).length C bufJ).length = (partsOf content C).length := by
      unfold reader_queues
      rw [List.length_map, List.length_range']
    rw [List.countP_eq_length.mpr (fun q hq => by
      obtain ⟨ds, pn, heq, _⟩ := hshape q hq
      rw [heq]
      simp), hlen]
  rw [run_writer_interleave hint ⟨0, List.replicate content.length 0⟩
    (partsOf content C).length (fun q hq => Or.inr (hshape q hq))
    (by rw [hcount]
        show (partsOf content C).length = 0 + (partsOf content C).length
        omega)]
  show (⟨some (applyWrites (dataWrites events) (List.replicate content.length 0)),
    none⟩ : JoinResult) = _
  have hperm : (dataWrites events).Perm
      (((reader_queues
        (dirOfSplit
            { parts := partsOf content C,
              manifest := { original_name := base_name,
                            parts_count := (partsOf content C).length,
                            original_size := content.length,
                            chunk_size := C,
                            original_hash := none } }).parts
        (partsOf content C).length C bufJ).map dataWrites).flatten) := by
    rw [← dataWrites_flatten]
    exact (interleave_perm hint).filterMap _
  obtain ⟨hb, hp, hc⟩ := multi_writes_facts content C bufJ hC hbufJ hL _ hpart
  rw [applyWrites_reconstructs_perm hperm hb hp hc]

theorem countCompleted_nil : countCompleted [] = 0 := rfl

theorem write_step_completed_parts (st : WriterSt) (m : RawMsg) :
    (write_step st m).completed_parts =
      st.completed_parts + (if m.error == some cCOMPLETED then 1 else 0) := by
  by_cases h : m.error = some cCOMPLETED
  · simp [write_step, h]
  · by_cases ht : isTruthy m.error
    · simp [write_step, h, ht]
    · simp [write_step, h, ht]

/-- The writer's drain characterized: termination is count-based on
`"COMPLETED"` messages alone; failed messages are passed over without
counting; a timeout event ends the drain early with the completion count
reached so far. -/
theorem writer_drain_characterization (total : Nat) :
    ∀ (es : List RawMsg) (st : WriterSt) (rest : List (Option RawMsg)),
      ((write_part_worker_streaming total (es.map some) st).2 = .drained ↔
        total ≤ st.completed_parts + countCompleted es) ∧
      ((write_part_worker_streaming total (es.map some ++ none :: rest) st).2 =
        if total ≤ st.completed_parts + countCompleted es then .drained
        else .timedOut) ∧
      ((write_part_worker_streaming total (es.map some ++ none :: rest) st).1.completed_parts =
        max st.completed_parts (min total (st.completed_parts + countCompleted es))) := by
  intro es
  induction es with
  | nil =>
      intro st rest
      rw [countCompleted_nil]
      by_cases h : total ≤ st.completed_parts
      · rw [List.map_nil, List.nil_append]
        rw [writer_done_eq total [] st h, writer_done_eq total (none :: rest) st h]
        refine ⟨by simpa using h, by rw [if_pos (by omega)], ?_⟩
        show st.completed_parts = _
        omega
      · rw [List.map_nil, List.nil_append]
        rw [writer_starved_eq total st (by omega),
          writer_timeout_eq total rest st (by omega)]
        refine ⟨?_, by rw [if_neg (by omega)], ?_⟩
        · constructor
          · intro hcontra
            cases hcontra
          · intro hcontra
            omega
        · show st.completed_parts = _
          omega
  | cons m es ih =>
      intro st rest
      have hcc : countCompleted (m :: es) =
          countCompleted es + (if m.error == some cCOMPLETED then 1 else 0) := by
        unfold countCompleted
        rw [List.countP_cons]
      by_cases h : total ≤ st.completed_parts
      · rw [List.map_cons, List.cons_append]
        rw [writer_done_eq total _ st h, writer_done_eq total _ st h]
        refine ⟨⟨fun _ => by omega, fun _ => rfl⟩, by rw [if_pos (by omega)], ?_⟩
        show st.completed_parts = _
        omega
      · rw [List.map_cons, List.cons_append]
        rw [writer_step_eq total m _ st (by omega), writer_step_eq total m _ st (by omega)]
        obtain ⟨ih1, ih2, ih3⟩ := ih (write_step st m) rest
        have hstep := write_step_completed_parts st m
        refine ⟨?_, ?_, ?_⟩
        · rw [ih1, hstep, hcc]
          omega
        · rw [ih2, hstep, hcc]
          by_cases hcase : total ≤
              st.completed_parts + (countCompleted es +
                (if m.error == some cCOMPLETED then 1 else 0))
          · rw [if_pos (by omega), if_pos (by omega)]
          · rw [if_neg (by omega), if_neg (by omega)]
        · by_cases hb : (m.error == some cCOMPLETED) = true
          · rw [ih3, hstep, hcc, if_pos hb]
            omega
          · rw [ih3, hstep, hcc, if_neg hb]
            omega

/-- C2 counterexample: the writer does not stop once a terminal message has
been observed for every part in range. With one part and a terminal failed
message delivered for part 1, the writer keeps draining past it (the failed
message is not counted), hits the queue timeout, and ends with
completed_parts = 0: termination counts only COMPLETED messages. -/
theorem c2_counterexample :
    (c2events.any (fun m => match m with
      | some msg => msg.part_num == 1 && isTerminal msg
      | none => false)) = true ∧
    write_part_worker_streaming 1 c2events ⟨0, []⟩ = (⟨0, []⟩, WStatus.timedOut) := by
  exact ⟨rfl, rfl⟩

/-- C2 (corrected): the writer logs and skips a failed message without
aborting, but a failed message does not advance its termination counter:
the drain ends as `drained` exactly when the initial count plus the number
of COMPLETED messages reaches the part total; otherwise a queue timeout
ends it early with exactly the completions observed so far (the observed
status and final count follow the closed forms below). -/
theorem c2_writer_contract (total : Nat) (es : List RawMsg) (st : WriterSt)
    (rest : List (Option RawMsg)) (m : RawMsg) (evs : List (Option RawMsg))
    (hfail : isTruthy m.error = true) (hne : m.error ≠ some cCOMPLETED)
    (hlt : st.completed_parts < total) :
    (write_part_worker_streaming total (some m :: evs) st =
      write_part_worker_streaming total evs st) ∧
    ((write_part_worker_streaming total (es.map some) st).2 = .drained ↔
      total ≤ st.completed_parts + countCompleted es) ∧
    ((write_part_worker_streaming total (es.map some ++ none :: rest) st).2 =
      if total ≤ st.completed_parts + countCompleted es then .drained
      else .timedOut) ∧
    ((write_part_worker_streaming total (es.map some ++ none :: rest) st).1.completed_parts =
      max st.completed_parts (min total (st.completed_parts + countCompleted es))) := by
  obtain ⟨h1, h2, h3⟩ := writer_drain_characterization total es st rest
  refine ⟨?_, h1, h2, h3⟩
  rw [writer_step_eq total m evs st hlt]
  have hstep : write_step st m = st := by
    unfold write_step
    rw [if_neg hne, if_pos hfail]
  rw [hstep]

/-- Witness for C2 (corrected) at a concrete run: one part, a failed message
followed by a COMPLETED message, then a timeout event. -/
theorem c2_writer_contract_witness :
    (write_part_worker_streaming 1
        (some ⟨1, none, none, some ('b' :: 'o' :: 'o' :: 'm' :: [])⟩ :: []) ⟨0, []⟩ =
      write_part_worker_streaming 1 [] ⟨0, []⟩) ∧
    ((write_part_worker_streaming 1
        (([⟨1, none, none, some cCOMPLETED⟩] : List RawMsg).map some) ⟨0, []⟩).2 = .drained ↔
      1 ≤ (0 : Nat) + countCompleted [⟨1, none, none, some cCOMPLETED⟩]) ∧
    ((write_part_worker_streaming 1
        (([⟨1, none, none, some cCOMPLETED⟩] : List RawMsg).map some ++ none :: []) ⟨0, []⟩).2 =
      if 1 ≤ (0 : Nat) + countCompleted [⟨1, none, none, some cCOMPLETED⟩] then .drained
      else .timedOut) ∧
    ((write_part_worker_streaming 1
        (([⟨1, none, none, some cCOMPLETED⟩] : List RawMsg).map some ++ none :: []) ⟨0, []⟩).1.completed_parts =
      max (0 : Nat) (min 1 ((0 : Nat) + countCompleted [⟨1, none, none, some cCOMPLETED⟩]))) :=
  c2_writer_contract 1 [⟨1, none, none, some cCOMPLETED⟩] ⟨0, []⟩ []
    ⟨1, none, none, some ('b' :: 'o' :: 'o' :: 'm' :: [])⟩ []
    (by decide) (by decide) (by decide)

/-! ## Claim C5 -/
/-- C5: the part reader emits exactly one terminal message (one whose error
field is set): when the part file opens, every streamed chunk message is
non-terminal and the list ends with the single COMPLETED terminal message;
when opening fails, the emitted list is exactly one failed terminal message
carrying the error — never both kinds, never zero terminal messages. -/
theorem c5_reader_one_terminal (part_num : Nat) (file : Option ByteSeq)
    (position psize buf : Nat) :
    ((read_part_worker_streaming part_num file position psize buf).countP
        isTerminal = 1) ∧
    ((read_part_worker_streaming part_num file position psize buf).getLast?
        = some (match file with
          | some _ => ⟨part_num, none, none, some cCOMPLETED⟩
          | none => ⟨part_num, none, none, some fileNotFoundMsg⟩)) ∧
    (∀ m ∈ read_part_worker_streaming part_num file position psize buf,
      isTerminal m = true → m.part_num = part_num) := by
  match file with
  | none =>
      refine ⟨rfl, rfl, ?_⟩
      intro m hm _
      rw [read_part_worker_streaming] at hm
      rcases List.mem_singleton.mp hm with rfl
      rfl
  | some d =>
      rw [read_part_worker_streaming]
      have hloop : ∀ m ∈ read_part_loop d part_num psize position buf 0 (psize + 1),
          isTerminal m = false := by
        intro m hm
        have := read_part_loop_error_none d part_num psize position buf (psize + 1) 0 m hm
        unfold isTerminal
        rw [this]
        rfl
      refine ⟨?_, ?_, ?_⟩
      · rw [List.countP_append]
        rw [List.countP_eq_zero.mpr (fun m hm => by rw [hloop m hm]; exact fun h => nomatch h)]
        rfl
      · rw [List.getLast?_concat]
      · intro m hm hterm
        rcases List.mem_append.mp hm with hmem | hmem
        · rw [hloop m hmem] at hterm
          cases hterm
        · rcases List.mem_singleton.mp hmem with rfl
          rfl

/-- C3 counterexample: a manifest missing the required key `original_size`
is not rejected.  No line of `c3lines` carries the `original_size:` key,
yet both joins proceed with the default size 0 and write output bytes,
reporting no error at all. -/
theorem c3_counterexample :
    (c3lines.all fun l => !(keySize.isPrefixOf l)) = true ∧
    join_files_single_streaming c3dir 8192 = ⟨some [7, 8], none⟩ ∧
    join_files_multithreaded_streaming c3dir 8192
        (reader_queues c3dir.parts 1 5 8192).flatten = ⟨some [7, 8], none⟩ := by
  refine ⟨rfl, rfl, rfl⟩

/-- C3 (corrected): the only manifest defects the joins reject are an
unparsable integer value (the uncaught `ValueError` from `int(...)`, before
any output is opened) and a missing/empty `original_name` or a
`parts_count` of 0 (the explicit invalid-format check); in both cases no
output is produced.  Missing `original_size` or `chunk_size` keys are NOT
rejected (see the counterexample).  The manifest lines are restricted to
the domain where the model's parser agrees with Python's `int(...)` and
`str.strip()`: printable ASCII, with no numeric-underscore notation in the
integer values. -/
theorem c3_manifest_errors (dir : PartsDir) (buf : Nat)
    (lines : List (List Char)) (events : List RawMsg)
    (hinfo : dir.info = some lines)
    (hfl : ∀ l ∈ lines, faithfulLine l) :
    (parse_info lines = .error () →
      join_files_single_streaming dir buf = ⟨none, some .valueError⟩ ∧
      join_files_multithreaded_streaming dir buf events = ⟨none, some .valueError⟩) ∧
    (∀ info, parse_info lines = .ok info → infoInvalid info = true →
      join_files_single_streaming dir buf = ⟨none, some .formatError⟩ ∧
      join_files_multithreaded_streaming dir buf events = ⟨none, some .formatError⟩) := by
  constructor
  · intro hparse
    constructor
    · unfold join_files_single_streaming
      rw [hinfo]
      dsimp only
      rw [hparse]
    · unfold join_files_multithreaded_streaming
      rw [hinfo]
      dsimp only
      rw [hparse]
  · intro info hparse hbad
    constructor
    · unfold join_files_single_streaming
      rw [hinfo]
      dsimp only
      rw [hparse]
      dsimp only
      rw [if_pos hbad]
    · unfold join_files_multithreaded_streaming
      rw [hinfo]
      dsimp only
      rw [hparse]
      dsimp only
      rw [if_pos hbad]

/-- Witness for C3 (corrected): a manifest with `parts_count: 0` is
rejected by the single-threaded join as an invalid format. -/
theorem c3_manifest_errors_witness :
    join_files_single_streaming ⟨some c3wlines, fun _ => none⟩ 1 =
      ⟨none, some .formatError⟩ :=
  ((c3_manifest_errors ⟨some c3wlines, fun _ => none⟩ 1 c3wlines [] rfl
      (by decide)).2
    { parts_count := 0 } rfl (by decide)).1

/-! ## Claim C1 and concrete witnesses for the split claims -/
/-- C1: splitting a non-empty file with a positive chunk size and then
joining the produced parts directory reproduces the file byte-for-byte
(content and length), both by the single-threaded join and by the
concurrent join under every interleaving of the readers' messages.  The
base name is required to be printable ASCII and unchanged by `strip()`:
the join opens its part files under the stripped manifest name, so a name
that stripping alters (for example one with a trailing blank) would make
the join look for files the splitter never wrote. -/
theorem c1_split_join_round_trip (content : ByteSeq) (base_name : List Char)
    (C bufS bufJ : Nat) (r : SplitResult)
    (hne : content ≠ []) (hC : 0 < C) (hbufS : 0 < bufS) (hbufJ : 0 < bufJ)
    (hascii : printableAscii base_name)
    (hstrip : pyStrip base_name = base_name)
    (hname : pyStrip base_name ≠ [])
    (hsplit : split_file content base_name C false bufS = some r) :
    join_files_single_streaming (dirOfSplit r) bufJ = ⟨some content, none⟩ ∧
    ∀ events, Interleave (reader_queues (dirOfSplit r).parts r.manifest.parts_count
        r.manifest.chunk_size bufJ) events →
      join_files_multithreaded_streaming (dirOfSplit r) bufJ events =
        ⟨some content, none⟩ :=
  ⟨join_single_of_split content base_name C bufS bufJ r hne hC hbufS hbufJ
      hname hsplit,
   fun events hint => join_multi_of_split content base_name C bufS bufJ r hne hC
      hbufS hbufJ hname hsplit events hint⟩

/-- Witness for C1 at the concrete file `[1, 2, 3]`, chunk size 2. -/
theorem c1_split_join_round_trip_witness :
    join_files_single_streaming (dirOfSplit exSplit) 4 = ⟨some [1, 2, 3], none⟩ ∧
    ∀ events, Interleave (reader_queues (dirOfSplit exSplit).parts
        exSplit.manifest.parts_count exSplit.manifest.chunk_size 4) events →
      join_files_multithreaded_streaming (dirOfSplit exSplit) 4 events =
        ⟨some [1, 2, 3], none⟩ :=
  c1_split_join_round_trip [1, 2, 3] ('f' :: []) 2 1 4 exSplit (by decide)
    (by decide) (by decide) (by decide) (by decide) (by decide) (by decide)
    (by decide)

/-- Witness for C4 at the concrete file `[1, 2, 3]`, chunk size 2. -/
theorem c4_split_part_count_and_sizes_witness :
    exSplit.parts.length = (([1, 2, 3] : ByteSeq).length + 2 - 1) / 2 ∧
    exSplit.manifest.parts_count = exSplit.parts.length ∧
    exSplit.manifest.original_size = ([1, 2, 3] : ByteSeq).length ∧
    exSplit.manifest.chunk_size = 2 ∧
    (exSplit.parts[exSplit.parts.length - 1]?.map List.length) =
      some (([1, 2, 3] : ByteSeq).length - (exSplit.parts.length - 1) * 2) ∧
    (∀ i, i + 1 < exSplit.parts.length →
      (exSplit.parts[i]?.map List.length) = some 2) ∧
    exSplit.manifest.chunk_size * (exSplit.manifest.parts_count - 1) <
      exSplit.manifest.original_size ∧
    exSplit.manifest.original_size ≤
      exSplit.manifest.chunk_size * exSplit.manifest.parts_count :=
  c4_split_part_count_and_sizes [1, 2, 3] ('f' :: []) 2 1 exSplit (by decide)
    (by decide) (by decide) (by decide)

/-- Witness for C6 at the concrete file `[1, 2, 3]`, chunk size 2. -/
theorem c6_part_ranges_witness :
    (∀ i j pi pj, i ≠ j → exSplit.parts[i]? = some pi →
      exSplit.parts[j]? = some pj →
      i * 2 + pi.length ≤ j * 2 ∨ j * 2 + pj.length ≤ i * 2) ∧
    (∀ i pi, exSplit.parts[i]? = some pi → i + 1 < exSplit.parts.length →
      i * 2 + pi.length = (i + 1) * 2) ∧
    (∀ b, b < ([1, 2, 3] : ByteSeq).length ↔
      ∃ i pi, exSplit.parts[i]? = some pi ∧ i * 2 ≤ b ∧ b < i * 2 + pi.length) :=
  c6_part_ranges_disjoint_contiguous_cover [1, 2, 3] ('f' :: []) 2 1 exSplit
    (by decide) (by decide) (by decide) (by decide)

/-! ## Claim C9 -/
theorem hash_read_loop_flatten (buf : Nat) (hbuf : 0 < buf) :
    ∀ (fuel : Nat) (content : ByteSeq), content.length < fuel →
      (hash_read_loop content buf fuel).flatten = content := by
  intro fuel
  induction fuel with
  | zero => intro content h; omega
  | succ fuel ih =>
      intro content h
      show (if content.take buf = [] then []
        else content.take buf :: hash_read_loop (content.drop buf) buf fuel).flatten
          = content
      cases content with
      | nil => rw [if_pos List.take_nil]; rfl
      | cons b bs =>
          rw [if_neg (by
            intro hcontra
            have := congrArg List.length hcontra
            rw [List.length_take] at this
            simp only [List.length_nil] at this
            have : min buf (b :: bs).length = 0 := this
            have hlp : 0 < (b :: bs).length := by simp
            omega)]
          rw [List.flatten_cons, ih ((b :: bs).drop buf) (by
            rw [List.length_drop]
            have : 0 < (b :: bs).length := by simp
            simp only [List.length_cons] at h ⊢
            omega)]
          exact List.take_append_drop buf (b :: bs)

/-- C9 counterexample: the digest is not independent of the buffer size.
With buffer size 0 the read loop absorbs nothing, so the same 1-byte file
hashed with buffer sizes 1 and 0 yields two different fingerprints. -/
theorem c9_counterexample :
    calculate_file_hash [1] 1 ≠ calculate_file_hash [1] 0 := by
  decide

/-- C9 (corrected): over positive buffer sizes the digest is deterministic
in the byte content only — two equal-content reads with any two positive
buffer sizes yield the same fingerprint, a hexadecimal string of fixed
length 64; a buffer size of 0 (excluded here) degenerates to the digest of
the empty stream (see the counterexample). -/
theorem c9_hash_deterministic (content : ByteSeq) (bs1 bs2 : Nat)
    (h1 : 0 < bs1) (h2 : 0 < bs2) :
    calculate_file_hash content bs1 = calculate_file_hash content bs2 ∧
    (calculate_file_hash content bs1).length = 64 := by
  unfold calculate_file_hash
  rw [hash_read_loop_flatten bs1 h1 (content.length + 1) content (by omega),
    hash_read_loop_flatten bs2 h2 (content.length + 1) content (by omega)]
  exact ⟨rfl, length_sha256hex content⟩

/-- Witness for C9 (corrected) at the 2-byte file `[3, 4]` with buffer
sizes 1 and 2. -/
theorem c9_hash_deterministic_witness :
    calculate_file_hash [3, 4] 1 = calculate_file_hash [3, 4] 2 ∧
    (calculate_file_hash [3, 4] 1).length = 64 :=
  c9_hash_deterministic [3, 4] 1 2 (by decide) (by decide)

/-! ## Claims C8 and C10 -/
theorem join_single_loop_succ (parts : Nat → Option ByteSeq) (C buf i count : Nat)
    (output : ByteSeq) :
    join_single_loop parts C buf i (count + 1) output =
      match parts i with
      | none => ⟨some output, some (.missingPart i)⟩
      | some d => join_single_loop parts C buf (i + 1) count
          (copy_loop output ((i - 1) * C) d buf (d.length + 1)) := rfl

theorem join_single_loop_missing (parts : Nat → Option ByteSeq) (C buf : Nat) :
    ∀ (count i : Nat) (output : ByteSeq) (k : Nat),
      i ≤ k → k < i + count → parts k = none →
      ∃ j, parts j = none ∧
        (join_single_loop parts C buf i count output).error =
          some (.missingPart j) := by
  intro count
  induction count with
  | zero => intro i output k h1 h2 hk; omega
  | succ count ih =>
      intro i output k h1 h2 hk
      rw [join_single_loop_succ]
      cases hp : parts i with
      | none => exact ⟨i, hp, rfl⟩
      | some d =>
          have hki : k ≠ i := by
            intro h
            rw [h, hp] at hk
            cases hk
          obtain ⟨j, hj1, hj2⟩ := ih (i + 1)
            (copy_loop output ((i - 1) * C) d buf (d.length + 1)) k (by omega)
            (by omega) hk
          exact ⟨j, hj1, hj2⟩

theorem check_parts_missing (parts : Nat → Option ByteSeq) :
    ∀ (count i k : Nat), i ≤ k → k < i + count → parts k = none →
      ∃ j, parts j = none ∧ check_parts parts i count = some j := by
  intro count
  induction count with
  | zero => intro i k h1 h2 hk; omega
  | succ count ih =>
      intro i k h1 h2 hk
      show ∃ j, parts j = none ∧ (match parts i with
        | none => some i
        | some _ => check_parts parts (i + 1) count) = some j
      cases hp : parts i with
      | none => exact ⟨i, hp, rfl⟩
      | some d =>
          have hki : k ≠ i := by
            intro h
            rw [h, hp] at hk
            cases hk
          obtain ⟨j, hj1, hj2⟩ := ih (i + 1) k (by omega) (by omega) hk
          exact ⟨j, hj1, hj2⟩

/-- C8: when a part named in the manifest's index range is missing, both
joins report a missing part (an index whose part file is absent): the
single-threaded join stops at it, and the concurrent join aborts before
writing any part data, leaving only the zero-filled truncated output.
The manifest is restricted to the faithful domain: printable-ASCII lines
without numeric underscores, and nonnegative `original_size` and
`chunk_size` (negative values make the program raise `OSError` at
`truncate`/`seek` instead of reaching any part check). -/
theorem c8_missing_part_reported (dir : PartsDir) (buf : Nat)
    (lines : List (List Char)) (info : InfoData) (events : List RawMsg) (k : Nat)
    (hinfo : dir.info = some lines)
    (hfl : ∀ l ∈ lines, faithfulLine l)
    (hparse : parse_info lines = .ok info)
    (hvalid : infoInvalid info = false)
    (hSnn : 0 ≤ info.original_size) (hCnn : 0 ≤ info.chunk_size)
    (hk1 : 1 ≤ k) (hk2 : k ≤ info.parts_count.toNat)
    (hmiss : dir.parts k = none) :
    (∃ j, dir.parts j = none ∧
      (join_files_single_streaming dir buf).error = some (.missingPart j)) ∧
    (∃ j, dir.parts j = none ∧
      join_files_multithreaded_streaming dir buf events =
        ⟨some (List.replicate info.original_size.toNat 0),
         some (.missingPart j)⟩) := by
  have hneg : ¬(infoInvalid info = true) := by
    rw [hvalid]
    exact Bool.false_ne_true
  constructor
  · unfold join_files_single_streaming
    rw [hinfo]
    dsimp only
    rw [hparse]
    dsimp only
    rw [if_neg hneg]
    exact join_single_loop_missing dir.parts info.chunk_size.toNat buf
      info.parts_count.toNat 1 _ k hk1 (by omega) hmiss
  · obtain ⟨j, hj1, hj2⟩ := check_parts_missing dir.parts
      info.parts_count.toNat 1 k hk1 (by omega) hmiss
    refine ⟨j, hj1, ?_⟩
    unfold join_files_multithreaded_streaming
    rw [hinfo]
    dsimp only
    rw [hparse]
    dsimp only
    rw [if_neg hneg]
    show (match check_parts dir.parts 1 info.parts_count.toNat with
      | some i => (⟨some (List.replicate info.original_size.toNat 0),
          some (JoinErr.missingPart i)⟩ : JoinResult)
      | none =>
        ⟨some (write_part_worker_streaming info.parts_count.toNat
          (events.map some)
          ⟨0, List.replicate info.original_size.toNat 0⟩).1.file, none⟩) = _
    rw [hj2]

/-- Witness for C8 at a concrete directory whose single part is missing. -/
theorem c8_missing_part_reported_witness :
    (∃ j, missDir.parts j = none ∧
      (join_files_single_streaming missDir 4).error =
        some (.missingPart j)) ∧
    (∃ j, missDir.parts j = none ∧
      join_files_multithreaded_streaming missDir 4 [] =
        ⟨some (List.replicate
          ({ original_name := some ('f' :: []), parts_count := 1,
             original_size := 2, chunk_size := 2,
             original_hash := none } : InfoData).original_size.toNat 0),
         some (.missingPart j)⟩) :=
  c8_missing_part_reported missDir 4 missLines
    { original_name := some ('f' :: []), parts_count := 1, original_size := 2,
      chunk_size := 2, original_hash := none } [] 1
    rfl (by decide) rfl (by decide) (by decide) (by decide) (by decide)
    (by decide) rfl

/-- C10: the concurrent join truncates the output to `original_size`
before checking that the part files exist, so when it aborts on a missing
part the zero-filled output of length `original_size` has already been
created and is left behind along with the missing-part error.  The
manifest is restricted to the faithful domain: printable-ASCII lines
without numeric underscores, and a nonnegative `original_size` (a negative
one makes the program raise `OSError` at `truncate` before the existence
check). -/
theorem c10_truncated_output_left_on_missing_part (dir : PartsDir) (buf : Nat)
    (lines : List (List Char)) (info : InfoData) (events : List RawMsg) (k : Nat)
    (hinfo : dir.info = some lines)
    (hfl : ∀ l ∈ lines, faithfulLine l)
    (hparse : parse_info lines = .ok info)
    (hvalid : infoInvalid info = false)
    (hSnn : 0 ≤ info.original_size)
    (hk1 : 1 ≤ k) (hk2 : k ≤ info.parts_count.toNat)
    (hmiss : dir.parts k = none) :
    ∃ j, dir.parts j = none ∧
      (join_files_multithreaded_streaming dir buf events).output =
        some (List.replicate info.original_size.toNat 0) ∧
      ((join_files_multithreaded_streaming dir buf events).output.map
        List.length) = some info.original_size.toNat ∧
      (join_files_multithreaded_streaming dir buf events).error =
        some (.missingPart j) := by
  obtain ⟨j, hj1, hj2⟩ := check_parts_missing dir.parts
    info.parts_count.toNat 1 k hk1 (by omega) hmiss
  have hres : join_files_multithreaded_streaming dir buf events =
      ⟨some (List.replicate info.original_size.toNat 0),
       some (.missingPart j)⟩ := by
    unfold join_files_multithreaded_streaming
    rw [hinfo]
    dsimp only
    rw [hparse]
    dsimp only
    rw [if_neg (by rw [hvalid]; exact Bool.false_ne_true)]
    show (match check_parts dir.parts 1 info.parts_count.toNat with
      | some i => (⟨some (List.replicate info.original_size.toNat 0),
          some (JoinErr.missingPart i)⟩ : JoinResult)
      | none =>
        ⟨some (write_part_worker_streaming info.parts_count.toNat
          (events.map some)
          ⟨0, List.replicate info.original_size.toNat 0⟩).1.file, none⟩) = _
    rw [hj2]
  refine ⟨j, hj1, ?_, ?_, ?_⟩
  · rw [hres]
  · rw [hres]
    show some (List.replicate info.original_size.toNat 0).length = _
    rw [List.length_replicate]
  · rw [hres]

/-- Witness for C10 at a concrete directory whose single part is missing. -/
theorem c10_truncated_output_witness :
    ∃ j, missDir.parts j = none ∧
      (join_files_multithreaded_streaming missDir 4 []).output =
        some (List.replicate
          ({ original_name := some ('f' :: []), parts_count := 1,
             original_size := 2, chunk_size := 2,
             original_hash := none } : InfoData).original_size.toNat 0) ∧
      ((join_files_multithreaded_streaming missDir 4 []).output.map
        List.length) =
        some ({ original_name := some ('f' :: []), parts_count := 1,
                original_size := 2, chunk_size := 2,
                original_hash := none } : InfoData).original_size.toNat ∧
      (join_files_multithreaded_streaming missDir 4 []).error =
        some (.missingPart j) :=
  c10_truncated_output_left_on_missing_part missDir 4 missLines
    { original_name := some ('f' :: []), parts_count := 1, original_size := 2,
      chunk_size := 2, original_hash := none } [] 1
    rfl (by decide) rfl (by decide) (by decide) (by decide) (by decide) rfl

/-! ## Claim C7 -/
/-- Two pairwise-disjoint, in-bounds write families that cover the same
byte positions with the same bytes produce the same file. -/
theorem applyWrites_refines {wsC wsP : List (Nat × ByteSeq)} {f : ByteSeq} {S : Nat}
    (hbC : InBounds wsC S) (hbP : InBounds wsP S) (hf : f.length = S)
    (hpC : wsC.Pairwise disjW) (hpP : wsP.Pairwise disjW)
    (hCP : ∀ w ∈ wsC, ∀ j, covers w j →
      ∃ w' ∈ wsP, covers w' j ∧ w.2[j - w.1]? = w'.2[j - w'.1]?)
    (hPC : ∀ w' ∈ wsP, ∀ j, covers w' j → ∃ w ∈ wsC, covers w j) :
    applyWrites wsC f = applyWrites wsP f := by
  apply List.ext_getElem?
  intro j
  by_cases hcov : ∃ w ∈ wsC, covers w j
  · obtain ⟨w, hw, hc⟩ := hcov
    obtain ⟨w', hw', hc', hbyte⟩ := hCP w hw j hc
    rw [getElem?_applyWrites_covered hbC hf hpC hw hc,
      getElem?_applyWrites_covered hbP hf hpP hw' hc', hbyte]
  · have hcov' : ∀ w' ∈ wsP, ¬ covers w' j := by
      intro w' hw' hc'
      obtain ⟨w, hw, hc⟩ := hPC w' hw' j hc'
      exact hcov ⟨w, hw, hc⟩
    rw [getElem?_applyWrites_not_covered hbC hf
        (fun w hw hc => hcov ⟨w, hw, hc⟩),
      getElem?_applyWrites_not_covered hbP hf hcov']

theorem interleave_cons_nil {α : Type} :
    ∀ {qs : List (List α)} {out : List α}, Interleave qs out →
      Interleave ([] :: qs) out := by
  intro qs out h
  induction h with
  | done qs hqs =>
      refine .done _ ?_
      intro q hq
      rcases List.mem_cons.mp hq with rfl | hq
      · rfl
      · exact hqs q hq
  | step qs i x q out hget hint ih =>
      refine .step ([] :: qs) (i + 1) x q out ?_ ih
      simpa using hget

/-- Delivering the queues one after another, in order, is one interleaving. -/
theorem interleave_flatten {α : Type} :
    ∀ (qs : List (List α)), Interleave qs qs.flatten := by
  intro qs
  induction qs with
  | nil => exact .done [] (by intro q hq; cases hq)
  | cons q qs ih =>
      rw [List.flatten_cons]
      induction q with
      | nil =>
          rw [List.nil_append]
          exact interleave_cons_nil ih
      | cons x q ihq =>
          rw [List.cons_append]
          exact .step ((x :: q) :: qs) 0 x q (q ++ qs.flatten) (by simp) ihq

/-- The reader queues of a directory whose parts are all present and
size-consistent: all well-shaped and nonempty, and the chunk writes they
emit are in bounds, pairwise disjoint, byte-for-byte included in the part
contents, and jointly reach every byte of every part's range. -/
theorem reader_queues_facts (parts : Nat → Option ByteSeq) (pc C buf S : Nat)
    (hbuf : 0 < buf) (d : Nat → ByteSeq)
    (hparts : ∀ k, 1 ≤ k → k ≤ pc → parts k = some (d k))
    (hbound : ∀ k, 1 ≤ k → k ≤ pc → (k - 1) * C + (d k).length ≤ S)
    (hsize : ∀ k, 1 ≤ k → k < pc → (d k).length ≤ C) :
    (∀ q ∈ reader_queues parts pc C buf, q = [] ∨ ShapeQ q) ∧
    ((reader_queues parts pc C buf).countP (fun q => !q.isEmpty) = pc) ∧
    InBounds (((reader_queues parts pc C buf).map dataWrites).flatten) S ∧
    (((reader_queues parts pc C buf).map dataWrites).flatten).Pairwise disjW ∧
    (∀ w ∈ ((reader_queues parts pc C buf).map dataWrites).flatten,
      ∀ j, covers w j →
        ∃ k, 1 ≤ k ∧ k ≤ pc ∧ (k - 1) * C ≤ j ∧ j < (k - 1) * C + (d k).length ∧
          w.2[j - w.1]? = (d k)[j - (k - 1) * C]?) ∧
    (∀ k, 1 ≤ k → k ≤ pc → ∀ j, (k - 1) * C ≤ j →
      j < (k - 1) * C + (d k).length →
        ∃ w ∈ ((reader_queues parts pc C buf).map dataWrites).flatten,
          covers w j ∧ w.2[j - w.1]? = (d k)[j - (k - 1) * C]?) := by
  have hqueue : ∀ k, 1 ≤ k → k ≤ pc →
      dataWrites (read_part_worker_streaming k (parts k) ((k - 1) * C)
          (((parts k).getD []).length) buf) =
        dataWrites (read_part_loop (d k) k (d k).length ((k - 1) * C) buf 0
          ((d k).length + 1)) := by
    intro k h1 h2
    rw [hparts k h1 h2]
    simp only [Option.getD_some]
    exact dataWrites_worker k (d k) ((k - 1) * C) (d k).length buf
  have hshapes : ∀ q ∈ reader_queues parts pc C buf, ShapeQ q := by
    intro q hq
    unfold reader_queues at hq
    rw [List.mem_map] at hq
    obtain ⟨k, hk, rfl⟩ := hq
    rw [List.mem_range'_1] at hk
    rw [hparts k hk.1 (by omega)]
    exact ⟨read_part_loop (d k) k (((some (d k)).getD []).length) ((k - 1) * C)
      buf 0 ((((some (d k)).getD []).length) + 1), k, rfl, fun m hm =>
        read_part_loop_error_none _ k _ _ buf _ 0 m hm⟩
  refine ⟨fun q hq => Or.inr (hshapes q hq), ?_, ?_, ?_, ?_, ?_⟩
  · rw [List.countP_eq_length.mpr ?_]
    · unfold reader_queues
      rw [List.length_map, List.length_range']
    · intro q hq
      obtain ⟨ds, pn, heq, _⟩ := hshapes q hq
      subst heq
      simp
  · intro w hw
    rw [List.mem_flatten] at hw
    obtain ⟨l, hl, hwl⟩ := hw
    rw [List.mem_map] at hl
    obtain ⟨qmsg, hq, rfl⟩ := hl
    unfold reader_queues at hq
    rw [List.mem_map] at hq
    obtain ⟨k, hk, rfl⟩ := hq
    rw [List.mem_range'_1] at hk
    rw [hqueue k hk.1 (by omega)] at hwl
    obtain ⟨_, hhi, _⟩ :=
      (read_part_loop_writes (d k) k ((k - 1) * C) buf hbuf _ 0).1 w hwl
    have := hbound k hk.1 (by omega)
    omega
  · rw [List.pairwise_flatten]
    constructor
    · intro l hl
      rw [List.mem_map] at hl
      obtain ⟨qmsg, hq, rfl⟩ := hl
      unfold reader_queues at hq
      rw [List.mem_map] at hq
      obtain ⟨k, hk, rfl⟩ := hq
      rw [List.mem_range'_1] at hk
      rw [hqueue k hk.1 (by omega)]
      exact (read_part_loop_writes (d k) k ((k - 1) * C) buf hbuf _ 0).2
    · unfold reader_queues
      rw [List.map_map, List.pairwise_map]
      refine (List.pairwise_lt_range' _ _).imp_of_mem ?_
      intro k k' hk hk' hlt w hw w' hw'
      rw [List.mem_range'_1] at hk hk'
      simp only [Function.comp] at hw hw'
      rw [hqueue k hk.1 (by omega)] at hw
      rw [hqueue k' hk'.1 (by omega)] at hw'
      obtain ⟨_, hhi, _⟩ :=
        (read_part_loop_writes (d k) k ((k - 1) * C) buf hbuf _ 0).1 w hw
      obtain ⟨hlo', _, _⟩ :=
        (read_part_loop_writes (d k') k' ((k' - 1) * C) buf hbuf _ 0).1 w' hw'
      left
      have hsz := hsize k hk.1 (by omega)
      have hkk : k * C ≤ (k' - 1) * C := Nat.mul_le_mul_right C (by omega)
      have hk1 : k * C = (k - 1) * C + C := by
        obtain ⟨m, rfl⟩ : ∃ m, k = m + 1 := ⟨k - 1, by omega⟩
        simp [Nat.succ_mul]
      omega
  · intro w hw j hcov
    rw [List.mem_flatten] at hw
    obtain ⟨l, hl, hwl⟩ := hw
    rw [List.mem_map] at hl
    obtain ⟨qmsg, hq, rfl⟩ := hl
    unfold reader_queues at hq
    rw [List.mem_map] at hq
    obtain ⟨k, hk, rfl⟩ := hq
    rw [List.mem_range'_1] at hk
    rw [hqueue k hk.1 (by omega)] at hwl
    obtain ⟨hlo, hhi, hbytes⟩ :=
      (read_part_loop_writes (d k) k ((k - 1) * C) buf hbuf _ 0).1 w hwl
    obtain ⟨hc1, hc2⟩ := hcov
    exact ⟨k, hk.1, by omega, by omega, by omega, hbytes j hc1 hc2⟩
  · intro k h1 h2 j hj1 hj2
    obtain ⟨w, hw, hcov, hbyte⟩ := read_part_loop_covers (d k) k ((k - 1) * C)
      buf hbuf ((d k).length + 1) 0 (by omega) (j - (k - 1) * C) (by omega)
      (by omega)
    have heq : (k - 1) * C + (j - (k - 1) * C) = j := by omega
    rw [heq] at hcov hbyte
    refine ⟨w, ?_, hcov, hbyte⟩
    rw [List.mem_flatten]
    refine ⟨dataWrites (read_part_worker_streaming k (parts k) ((k - 1) * C)
      (((parts k).getD []).length) buf), ?_, ?_⟩
    · rw [List.mem_map]
      refine ⟨read_part_worker_streaming k (parts k) ((k - 1) * C)
        (((parts k).getD []).length) buf, ?_, rfl⟩
      unfold reader_queues
      rw [List.mem_map]
      exact ⟨k, List.mem_range'_1.mpr ⟨h1, by omega⟩, rfl⟩
    · rw [hqueue k h1 h2]
      exact hw

/-- C7 counterexample: a valid parts directory (manifest present, all
parts present) on which the concurrent join — under a legitimate
interleaving of its own readers' messages, part 2's messages first — and
the single-threaded join produce different outputs. -/
theorem c7_counterexample :
    Interleave (reader_queues c7dir.parts 2 1 8192)
      [⟨2, some 1, some [3, 4], none⟩, ⟨2, none, none, some cCOMPLETED⟩,
       ⟨1, some 0, some [1, 2], none⟩, ⟨1, none, none, some cCOMPLETED⟩] ∧
    join_files_multithreaded_streaming c7dir 8192
      [⟨2, some 1, some [3, 4], none⟩, ⟨2, none, none, some cCOMPLETED⟩,
       ⟨1, some 0, some [1, 2], none⟩, ⟨1, none, none, some cCOMPLETED⟩] ≠
    join_files_single_streaming c7dir 8192 := by
  constructor
  · refine .step _ 1 _ [⟨2, none, none, some cCOMPLETED⟩] _ (by decide) ?_
    refine .step _ 1 _ [] _ (by decide) ?_
    refine .step _ 0 _ [⟨1, none, none, some cCOMPLETED⟩] _ (by decide) ?_
    refine .step _ 0 _ [] _ (by decide) ?_
    exact .done _ (by decide)
  · decide

/-- C7 (corrected): the single-threaded and the concurrent join agree on
every directory that is size-consistent with its manifest — nonnegative
`original_size` and `chunk_size` (negative values crash the program at
`truncate`/`seek`), all parts in `[1, parts_count]` present, each part
fitting inside `original_size` at its offset, and every non-last part no
larger than `chunk_size` — and they do so under every interleaving of the
readers' messages; the manifest lines lie in the printable-ASCII,
no-numeric-underscore domain where the model's parsing agrees with
Python's.  Without the size constraints the two joins can disagree (see
the counterexample). -/
theorem c7_joins_agree (dir : PartsDir) (buf : Nat) (hbuf : 0 < buf)
    (lines : List (List Char)) (info : InfoData) (d : Nat → ByteSeq)
    (hinfo : dir.info = some lines)
    (hfl : ∀ l ∈ lines, faithfulLine l)
    (hparse : parse_info lines = .ok info)
    (hvalid : infoInvalid info = false)
    (hSnn : 0 ≤ info.original_size) (hCnn : 0 ≤ info.chunk_size)
    (hparts : ∀ k, 1 ≤ k → k ≤ info.parts_count.toNat →
      dir.parts k = some (d k))
    (hbound : ∀ k, 1 ≤ k → k ≤ info.parts_count.toNat →
      (k - 1) * info.chunk_size.toNat + (d k).length ≤ info.original_size.toNat)
    (hsize : ∀ k, 1 ≤ k → k < info.parts_count.toNat →
      (d k).length ≤ info.chunk_size.toNat)
    (events : List RawMsg)
    (hint : Interleave (reader_queues dir.parts info.parts_count.toNat
      info.chunk_size.toNat buf) events) :
    join_files_multithreaded_streaming dir buf events =
      join_files_single_streaming dir buf := by
  obtain ⟨hshape, hcount, hInB, hPW, hChunk, hCover⟩ :=
    reader_queues_facts dir.parts info.parts_count.toNat info.chunk_size.toNat
      buf info.original_size.toNat hbuf d hparts hbound hsize
  have hneg : ¬(infoInvalid info = true) := by
    rw [hvalid]
    exact Bool.false_ne_true
  have hsingle : join_files_single_streaming dir buf =
      ⟨some (applyWrites (partWritesR dir.parts info.chunk_size.toNat 1
          info.parts_count.toNat)
        (List.replicate info.original_size.toNat 0)), none⟩ := by
    unfold join_files_single_streaming
    rw [hinfo]
    dsimp only
    rw [hparse]
    dsimp only
    rw [if_neg hneg]
    exact join_single_loop_eq dir.parts info.chunk_size.toNat buf hbuf
      info.parts_count.toNat 1 _ (fun k h1 h2 =>
        ⟨d k, hparts k h1 (by omega), by
          rw [List.length_replicate]
          exact hbound k h1 (by omega)⟩)
  have hmulti : join_files_multithreaded_streaming dir buf events =
      ⟨some (applyWrites (dataWrites events)
        (List.replicate info.original_size.toNat 0)), none⟩ := by
    unfold join_files_multithreaded_streaming
    rw [hinfo]
    dsimp only
    rw [hparse]
    dsimp only
    rw [if_neg hneg]
    show (match check_parts dir.parts 1 info.parts_count.toNat with
      | some i => (⟨some (List.replicate info.original_size.toNat 0),
          some (JoinErr.missingPart i)⟩ : JoinResult)
      | none =>
        ⟨some (write_part_worker_streaming info.parts_count.toNat
          (events.map some)
          ⟨0, List.replicate info.original_size.toNat 0⟩).1.file, none⟩) = _
    rw [check_parts_none dir.parts info.parts_count.toNat 1 (fun k h1 h2 => by
      rw [hparts k h1 (by omega)]
      rfl)]
    rw [run_writer_interleave hint ⟨0, List.replicate info.original_size.toNat 0⟩
      info.parts_count.toNat hshape
      (by
        rw [hcount]
        show info.parts_count.toNat = 0 + info.parts_count.toNat
        omega)]
  rw [hmulti, hsingle]
  have hperm : (dataWrites events).Perm
      (((reader_queues dir.parts info.parts_count.toNat info.chunk_size.toNat
        buf).map dataWrites).flatten) := by
    have h1 := interleave_perm hint
    have h2 : (dataWrites events).Perm (dataWrites
        (reader_queues dir.parts info.parts_count.toNat info.chunk_size.toNat
          buf).flatten) := by
      unfold dataWrites
      exact h1.filterMap _
    rw [dataWrites_flatten] at h2
    exact h2
  have hwsP_mem : ∀ w ∈ partWritesR dir.parts info.chunk_size.toNat 1
      info.parts_count.toNat, ∃ k, 1 ≤ k ∧ k ≤ info.parts_count.toNat ∧
        w = ((k - 1) * info.chunk_size.toNat, d k) := by
    intro w hw
    unfold partWritesR at hw
    rw [List.mem_map] at hw
    obtain ⟨k, hk, rfl⟩ := hw
    rw [List.mem_range'_1] at hk
    refine ⟨k, hk.1, by omega, ?_⟩
    rw [hparts k hk.1 (by omega)]
    rfl
  have hfix : ∀ k, 1 ≤ k → k ≤ info.parts_count.toNat →
      ((k - 1) * info.chunk_size.toNat, d k) ∈
        partWritesR dir.parts info.chunk_size.toNat 1 info.parts_count.toNat := by
    intro k h1 h2
    unfold partWritesR
    rw [List.mem_map]
    refine ⟨k, List.mem_range'_1.mpr ⟨h1, by omega⟩, ?_⟩
    rw [hparts k h1 h2]
    rfl
  refine congrArg (fun o => (⟨some o, none⟩ : JoinResult)) ?_
  refine applyWrites_refines (S := info.original_size.toNat)
    (fun w hw => hInB w (hperm.mem_iff.mp hw)) ?_ (List.length_replicate _ _)
    ((List.Perm.pairwise_iff (fun h => disjW_symm h) hperm).mpr hPW) ?_ ?_ ?_
  · intro w hw
    obtain ⟨k, h1, h2, heq⟩ := hwsP_mem w hw
    subst heq
    exact hbound k h1 h2
  · unfold partWritesR
    rw [List.pairwise_map]
    refine (List.pairwise_lt_range' _ _).imp_of_mem ?_
    intro k k' hk hk' hlt
    rw [List.mem_range'_1] at hk hk'
    left
    show (k - 1) * info.chunk_size.toNat +
      ((dir.parts k).getD []).length ≤ (k' - 1) * info.chunk_size.toNat
    rw [hparts k hk.1 (by omega)]
    simp only [Option.getD_some]
    have hsz := hsize k hk.1 (by omega)
    have hkk : k * info.chunk_size.toNat ≤ (k' - 1) * info.chunk_size.toNat :=
      Nat.mul_le_mul_right _ (by omega)
    have hk1 : k * info.chunk_size.toNat =
        (k - 1) * info.chunk_size.toNat + info.chunk_size.toNat := by
      obtain ⟨m, rfl⟩ : ∃ m, k = m + 1 := ⟨k - 1, by omega⟩
      simp [Nat.succ_mul]
    omega
  · intro w hw j hcov
    obtain ⟨k, h1, h2, hj1, hj2, hbyte⟩ :=
      hChunk w (hperm.mem_iff.mp hw) j hcov
    exact ⟨((k - 1) * info.chunk_size.toNat, d k), hfix k h1 h2, ⟨hj1, hj2⟩,
      hbyte⟩
  · intro w' hw' j hcov'
    obtain ⟨k, h1, h2, heq⟩ := hwsP_mem w' hw'
    subst heq
    obtain ⟨w, hw, hcov, _⟩ := hCover k h1 h2 j hcov'.1 hcov'.2
    exact ⟨w, hperm.mem_iff.mpr hw, hcov⟩

/-- Witness for C7 (corrected) on a concrete size-consistent directory,
under the queue-by-queue interleaving. -/
theorem c7_joins_agree_witness :
    join_files_multithreaded_streaming c7wdir 4
      ((reader_queues c7wdir.parts 2 2 4).flatten) =
      join_files_single_streaming c7wdir 4 :=
  c7_joins_agree c7wdir 4 (by decide)
    [keyName ++ ('f' :: []), keyParts ++ ('2' :: []),
     keySize ++ ('3' :: []), keyChunk ++ ('2' :: [])]
    { original_name := some ('f' :: []), parts_count := 2, original_size := 3,
      chunk_size := 2, original_hash := none }
    (fun i => if i = 1 then [1, 2] else [3])
    rfl (by decide) rfl (by decide) (by decide) (by decide)
    (by
      intro k h1 h2
      match k, h2 with
      | 1, _ => rfl
      | 2, _ => rfl
      | k + 3, h2 => exact absurd (show k + 3 ≤ 2 from h2) (by omega))
    (by
      intro k h1 h2
      match k, h2 with
      | 1, _ => decide
      | 2, _ => decide
      | k + 3, h2 => exact absurd (show k + 3 ≤ 2 from h2) (by omega))
    (by
      intro k h1 h2
      match k, h2 with
      | 1, _ => decide
      | k + 2, h2 => exact absurd (show k + 2 < 2 from h2) (by omega))
    ((reader_queues c7wdir.parts 2 2 4).flatten)
    (interleave_flatten _)
